import Mathlib

/-!
Verification of simpleperf's RecordFileWriter (record_file_writer.cpp).

The development embeds the writer shallowly:

* Byte tier: the destination file is a list of bytes together with the stdio
  cursor and the member fields of the class.  The fallible libc calls
  (fwrite / fseek / ftello / fopen) are driven by an oracle of outcomes, so
  both the success paths and every early-failure path of the source are
  representable.  Write, WriteData, WriteRecord, WriteAttrSection and the
  feature-table operations live here.

* Record tier: SortDataSection never looks at a record's payload bytes, it
  only moves whole records around by their cpu and timestamp, so it is
  embedded over the parse of the data section as a list of records.  The
  per-cpu scratch files of the source become lists of still-unread records
  plus the data_size byte counter the source keeps for each of them; the
  external RecordCache (record.h) is modelled by its documented contract,
  extraction of a record of minimal timestamp.

Out-of-scope collaborators (record.h, event_attr.h, utils.h) are embedded by
the small interface this file actually uses: capability bits of an event
attribute, the type / size / binary form of a record, and Align.
-/

namespace RecordFileWriter

/-- Oracle of outcomes for the fallible libc calls (fwrite, fseek, ftello,
fopen): each call consumes one entry, and an exhausted oracle means every
later call succeeds. -/
abbrev Oracle := List Bool

/-- Consume the next I/O outcome from the oracle. -/
def next : Oracle → Bool × Oracle
  | [] => (true, [])
  | b :: bs => (b, bs)

/-- Little-endian bytes of a 16-bit value. -/
def u16le (n : Nat) : List Nat := [n % 256, n / 256 % 256]

/-- Little-endian bytes of a 32-bit value. -/
def u32le (n : Nat) : List Nat :=
  [n % 256, n / 256 % 256, n / 256 ^ 2 % 256, n / 256 ^ 3 % 256]

/-- Little-endian bytes of a 64-bit value. -/
def u64le (n : Nat) : List Nat :=
  [n % 256, n / 256 % 256, n / 256 ^ 2 % 256, n / 256 ^ 3 % 256,
   n / 256 ^ 4 % 256, n / 256 ^ 5 % 256, n / 256 ^ 6 % 256, n / 256 ^ 7 % 256]

/-- Overwrite the bytes of `file` at offset `pos` with `data`, zero-filling the
gap when `pos` is past the end (fseek beyond EOF followed by fwrite). -/
def writeAt (file : List Nat) (pos : Nat) (data : List Nat) : List Nat :=
  (file ++ List.replicate (pos - file.length) 0).take pos ++ data ++
    file.drop (pos + data.length)

/-- Align of simpleperf's utils.h: round `x` up to a multiple of `a` (the
source uses the bit trick for power-of-two `a`; 64 is the only alignment this
file passes). -/
def Align (x a : Nat) : Nat := (x + a - 1) / a * a

/-- Size of the perf.data FileHeader (perf_file_format.h): magic, header size,
attr size, three perf_file_section pairs and the feature bitmap. -/
def FILE_HEADER_SIZE : Nat := 104

/-- Size of one SectionDesc, a pair of two 64-bit values (offset, size). -/
def SECTION_DESC_SIZE : Nat := 16

/-- Record::header_size() = sizeof(perf_event_header): u32 type, u16 misc,
u16 size. -/
def RECORD_HEADER_SIZE : Nat := 8

/-- Maximum record size accepted by linux-tools-perf
(record_file_writer.cpp:127). -/
def RECORD_SIZE_LIMIT : Nat := 65535

/-- First type tag reserved for simpleperf's own record kinds (record.h).  The
exact values of the three tags are irrelevant here; only their distinctness
and the threshold comparison matter. -/
def SIMPLE_PERF_RECORD_TYPE_START : Nat := 32768

/-- Type tag of a split chunk record (record.h). -/
def SIMPLE_PERF_RECORD_SPLIT : Nat := 32769

/-- Type tag of the split terminator record (record.h). -/
def SIMPLE_PERF_RECORD_SPLIT_END : Nat := 32770

/-- Abstraction of a perf_event_attr (event_attr.h, out of scope): the two
capability queries the writer performs, IsTimestampSupported and
IsCpuSupported, plus its opaque serialized bytes as written inside a
FileAttr. -/
structure EventAttr where
  sample_time : Bool
  sample_cpu : Bool
  bytes : List Nat
deriving DecidableEq, Repr

/-- IsTimestampSupported of event_attr.h: whether records carry a timestamp. -/
def IsTimestampSupported (attr : EventAttr) : Bool := attr.sample_time

/-- IsCpuSupported of event_attr.h: whether records carry a cpu (lane) id. -/
def IsCpuSupported (attr : EventAttr) : Bool := attr.sample_cpu

/-- EventAttrWithId: one attribute configuration plus the ids of the event
streams using it (64-bit values). -/
structure EventAttrWithId where
  attr : EventAttr
  ids : List Nat
deriving DecidableEq, Repr

/-- Abstraction of a Record as consumed by WriteRecord: the type tag and the
full binary representation; record.size() is the length of Binary(). -/
structure Record where
  type : Nat
  binary : List Nat
deriving DecidableEq, Repr

/-- Record::size(): the total wire size, header included. -/
def Record.size (r : Record) : Nat := r.binary.length

/-- State of a RecordFileWriter: the destination file's bytes, the stdio
cursor of record_fp_, and the member fields initialized in the constructor
(record_file_writer.cpp:54-63). -/
structure WS where
  file : List Nat
  pos : Nat
  attr_section_offset_ : Nat
  attr_section_size_ : Nat
  data_section_offset_ : Nat
  data_section_size_ : Nat
  feature_count_ : Nat
  current_feature_index_ : Nat
  features_ : List Nat
  event_attr_ : EventAttr
deriving DecidableEq, Repr

/-- Write (record_file_writer.cpp:168-174): one fwrite at the current cursor. -/
def Write (o : Oracle) (w : WS) (data : List Nat) : Bool × WS × Oracle :=
  let (ok, o) := next o
  if ok then
    (true, { w with file := writeAt w.file w.pos data, pos := w.pos + data.length }, o)
  else (false, w, o)

/-- Model of fseek(record_fp_, target, SEEK_SET). -/
def fseekSet (o : Oracle) (w : WS) (target : Nat) : Bool × WS × Oracle :=
  let (ok, o) := next o
  if ok then (true, { w with pos := target }, o) else (false, w, o)

/-- Model of ftello(record_fp_): report the current cursor. -/
def ftello (o : Oracle) (w : WS) : Bool × Nat × Oracle :=
  let (ok, o) := next o
  (ok, w.pos, o)

/-- WriteData (record_file_writer.cpp:160-166): Write, then account the bytes
to data_section_size_. -/
def WriteData (o : Oracle) (w : WS) (data : List Nat) : Bool × WS × Oracle :=
  match Write o w data with
  | (false, w, o) => (false, w, o)
  | (true, w, o) =>
    (true, { w with data_section_size_ := w.data_section_size_ + data.length }, o)

/-- Wire form of a RecordHeader as produced by MoveToBinaryFormat (record.h)
for the default-constructed header of WriteRecord: u32 type, u16 misc = 0,
u16 size. -/
def headerBytes (type size : Nat) : List Nat := u32le type ++ u16le 0 ++ u16le size

/-- Result of an operation that can also abort the process on a failed CHECK. -/
inductive WRes
  | ok
  | fail
  | fatal
deriving DecidableEq, Repr

/-- Split loop of WriteRecord (record_file_writer.cpp:139-152): while bytes are
left, emit a SPLIT header and then up to RECORD_SIZE_LIMIT - header_size raw
bytes from the front of the remaining binary.  `p` is the read pointer into
`bin` and `left` the remaining byte count. -/
def splitLoop (o : Oracle) (w : WS) (bin : List Nat) (p left : Nat) :
    Bool × WS × Oracle :=
  if h : 0 < left then
    let n := min (RECORD_SIZE_LIMIT - RECORD_HEADER_SIZE) left
    match WriteData o w (headerBytes SIMPLE_PERF_RECORD_SPLIT (n + RECORD_HEADER_SIZE)) with
    | (false, w, o) => (false, w, o)
    | (true, w, o) =>
      match WriteData o w ((bin.drop p).take n) with
      | (false, w, o) => (false, w, o)
      | (true, w, o) => splitLoop o w bin (p + n) (left - n)
  else (true, w, o)
termination_by left
decreasing_by
simp only [RECORD_SIZE_LIMIT, RECORD_HEADER_SIZE]
omega

/-- WriteRecord (record_file_writer.cpp:122-158).  A record not above the size
limit is written through WriteData with the result of that call discarded
(line 129-130 of the source).  An oversized record must have a simpleperf-own
type tag (CHECK_GT on line 132, fatal otherwise) and is written as SPLIT
chunks terminated by a header-only SPLIT_END record. -/
def WriteRecord (o : Oracle) (w : WS) (r : Record) : WRes × WS × Oracle :=
  if r.size ≤ RECORD_SIZE_LIMIT then
    let (_, w, o) := WriteData o w r.binary
    (.ok, w, o)
  else if r.type ≤ SIMPLE_PERF_RECORD_TYPE_START then (.fatal, w, o)
  else
    match splitLoop o w r.binary 0 r.size with
    | (false, w, o) => (.fail, w, o)
    | (true, w, o) =>
      match WriteData o w (headerBytes SIMPLE_PERF_RECORD_SPLIT_END RECORD_HEADER_SIZE) with
      | (false, w, o) => (.fail, w, o)
      | (true, w, o) => (.ok, w, o)

/-- Payload slices emitted by the split loop, as a pure function of the
record's binary: the same recursion as splitLoop, keeping only the chunk
taken from the front at each iteration. -/
def splitChunks (bin : List Nat) (p left : Nat) : List (List Nat) :=
  if h : 0 < left then
    let n := min (RECORD_SIZE_LIMIT - RECORD_HEADER_SIZE) left
    ((bin.drop p).take n) :: splitChunks bin (p + n) (left - n)
  else []
termination_by left
decreasing_by
simp only [RECORD_SIZE_LIMIT, RECORD_HEADER_SIZE]
omega

/-- Full emission of the split path of WriteRecord: one SPLIT record per
payload chunk, then the header-only SPLIT_END terminator. -/
def splitEmission (bin : List Nat) : List (Nat × List Nat) :=
  (splitChunks bin 0 bin.length).map (fun c => (SIMPLE_PERF_RECORD_SPLIT, c)) ++
    [(SIMPLE_PERF_RECORD_SPLIT_END, [])]

/-- Wire bytes of one emitted record: its header (size = payload + header
size) followed by its payload. -/
def encodeRec (tc : Nat × List Nat) : List Nat :=
  headerBytes tc.1 (tc.2.length + RECORD_HEADER_SIZE) ++ tc.2

/-- Loop writing the id arrays (record_file_writer.cpp:86-90), one Write per
attribute. -/
def writeIdSections (o : Oracle) (w : WS) : List EventAttrWithId → Bool × WS × Oracle
  | [] => (true, w, o)
  | a :: rest =>
    match Write o w ((a.ids.map u64le).flatten) with
    | (false, w, o) => (false, w, o)
    | (true, w, o) => writeIdSections o w rest

/-- Loop writing the FileAttr records (record_file_writer.cpp:97-106): the
attribute's bytes plus the SectionDesc pointing at its slice of the id block;
`idOff` plays id_section_offset and advances by each id array's byte size. -/
def writeFileAttrs (o : Oracle) (w : WS) (idOff : Nat) :
    List EventAttrWithId → Bool × WS × Oracle
  | [] => (true, w, o)
  | a :: rest =>
    match Write o w (a.attr.bytes ++ u64le idOff ++ u64le (8 * a.ids.length)) with
    | (false, w, o) => (false, w, o)
    | (true, w, o) => writeFileAttrs o w (idOff + 8 * a.ids.length) rest

/-- WriteAttrSection (record_file_writer.cpp:71-120). -/
def WriteAttrSection (o : Oracle) (w : WS) (attr_ids : List EventAttrWithId) :
    Bool × WS × Oracle :=
  match attr_ids with
  | [] => (false, w, o)
  | a0 :: _ =>
    match fseekSet o w FILE_HEADER_SIZE with
    | (false, w, o) => (false, w, o)
    | (true, w, o) =>
      match ftello o w with
      | (false, _, o) => (false, w, o)
      | (true, idOff, o) =>
        match writeIdSections o w attr_ids with
        | (false, w, o) => (false, w, o)
        | (true, w, o) =>
          match ftello o w with
          | (false, _, o) => (false, w, o)
          | (true, attrOff, o) =>
            match writeFileAttrs o w idOff attr_ids with
            | (false, w, o) => (false, w, o)
            | (true, w, o) =>
              match ftello o w with
              | (false, _, o) => (false, w, o)
              | (true, dataOff, o) =>
                (true, { w with attr_section_offset_ := attrOff,
                                attr_section_size_ := dataOff - attrOff,
                                data_section_offset_ := dataOff,
                                event_attr_ := a0.attr }, o)

/-- SeekFileEnd (record_file_writer.cpp:302-314): fseek to SEEK_END, then
ftello; reports the end-of-file offset. -/
def SeekFileEnd (o : Oracle) (w : WS) : Bool × Nat × WS × Oracle :=
  let (ok, o) := next o
  if !ok then (false, 0, w, o)
  else
    let w := { w with pos := w.file.length }
    let (ok2, off, o) := ftello o w
    if !ok2 then (false, 0, w, o) else (true, off, w, o)

/-- WriteFeatureHeader (record_file_writer.cpp:316-328): remember the declared
count, reset the slot index, and reserve count * sizeof(SectionDesc) zero
bytes right after the data section. -/
def WriteFeatureHeader (o : Oracle) (w : WS) (feature_count : Nat) :
    Bool × WS × Oracle :=
  let w := { w with feature_count_ := feature_count, current_feature_index_ := 0 }
  let feature_header_size := feature_count * SECTION_DESC_SIZE
  match fseekSet o w (w.data_section_offset_ + w.data_section_size_) with
  | (false, w, o) => (false, w, o)
  | (true, w, o) => Write o w (List.replicate feature_header_size 0)

/-- WriteFeatureBegin (record_file_writer.cpp:391-397): the CHECK_LT on line
392 aborts the process when the declared feature count is already exhausted;
otherwise the current end of file becomes the feature's start offset. -/
def WriteFeatureBegin (o : Oracle) (w : WS) : WRes × Nat × WS × Oracle :=
  if w.feature_count_ ≤ w.current_feature_index_ then (.fatal, 0, w, o)
  else
    match SeekFileEnd o w with
    | (false, _, w, o) => (.fail, 0, w, o)
    | (true, off, w, o) => (.ok, off, w, o)

/-- WriteFeatureEnd (record_file_writer.cpp:399-419): compute the feature's
SectionDesc from the start offset and the current end of file, write it into
this feature's slot of the reserved table, advance the slot index and record
the feature kind for the header bitmap. -/
def WriteFeatureEnd (o : Oracle) (w : WS) (feature : Nat) (start_offset : Nat) :
    Bool × WS × Oracle :=
  match SeekFileEnd o w with
  | (false, _, w, o) => (false, w, o)
  | (true, end_offset, w, o) =>
    let desc := u64le start_offset ++ u64le (end_offset - start_offset)
    let feature_offset := w.data_section_offset_ + w.data_section_size_
    match fseekSet o w (feature_offset + w.current_feature_index_ * SECTION_DESC_SIZE) with
    | (false, w, o) => (false, w, o)
    | (true, w, o) =>
      match Write o w desc with
      | (false, w, o) => (false, w, o)
      | (true, w, o) =>
        (true, { w with current_feature_index_ := w.current_feature_index_ + 1,
                        features_ := w.features_ ++ [feature] }, o)

/-- WriteFeatureString (record_file_writer.cpp:343-358).  The string is a list
of character codes.  The length prefix is Align(s.size() + 1, 64) cast to
uint32_t (modelled by reduction mod 2^32); the payload buffer is len
zero-initialized bytes with the string copied over its front (std::copy
requires len to be at least the string length, anything else is undefined
behavior in the source; the model truncates). -/
def WriteFeatureString (o : Oracle) (w : WS) (feature : Nat) (s : List Nat) :
    WRes × WS × Oracle :=
  match WriteFeatureBegin o w with
  | (.fatal, _, w, o) => (.fatal, w, o)
  | (.fail, _, w, o) => (.fail, w, o)
  | (.ok, start_offset, w, o) =>
    let len := Align (s.length + 1) 64 % 2 ^ 32
    match Write o w (u32le len) with
    | (false, w, o) => (.fail, w, o)
    | (true, w, o) =>
      let v := s.take len ++ List.replicate (len - s.length) 0
      match Write o w v with
      | (false, w, o) => (.fail, w, o)
      | (true, w, o) =>
        match WriteFeatureEnd o w feature start_offset with
        | (false, w, o) => (.fail, w, o)
        | (true, w, o) => (.ok, w, o)

/-- Record as consumed by SortDataSection: lane id (Cpu()), timestamp
(Timestamp()), wire size (size()) and opaque payload identity.  Every real
record is at least header-sized, which the sort theorems take as the
hypothesis 0 < size. -/
structure Rec where
  time : Nat
  cpu : Nat
  size : Nat
  payload : List Nat
deriving DecidableEq, Repr

/-- Per-cpu scratch file of SortDataSection (struct CpuData,
record_file_writer.cpp:219-232): the records written to the temporary file
and not yet read back, and the source's data_size counter of unread bytes. -/
structure CpuData where
  cpu : Nat
  queue : List Rec
  data_size : Nat
deriving DecidableEq, Repr

/-- Writer state as seen by SortDataSection: the parse of the data section as
a record list, plus the two member fields the method reads.  The method never
touches the other members of the class. -/
structure SortW where
  dataSec : List Rec
  data_section_size_ : Nat
  event_attr_ : EventAttr
deriving DecidableEq, Repr

/-- Total byte size of a list of records. -/
def sizeSum (rs : List Rec) : Nat := (rs.map Rec.size).sum

/-- Route one record to its cpu's scratch data (cpu_map[r->Cpu()] with
creation on first use, then data_size accounting and WriteRecordToFile;
record_file_writer.cpp:246-258). -/
def routeRec (m : List CpuData) (r : Rec) : List CpuData :=
  match m with
  | [] => [⟨r.cpu, [r], r.size⟩]
  | l :: ls =>
    if l.cpu = r.cpu then
      { l with queue := l.queue ++ [r], data_size := l.data_size + r.size } :: ls
    else l :: routeRec ls r

/-- Whether the cpu map already holds an entry for cpu `c`. -/
def hasCpu (m : List CpuData) (c : Nat) : Bool := m.any (fun l => l.cpu == c)

/-- Lookup of cpu_map[cpu] without creation. -/
def findCpu (m : List CpuData) (c : Nat) : Option CpuData :=
  m.find? (fun l => l.cpu == c)

/-- Replace the queue and data_size of the entry for cpu `c`. -/
def updateCpu (m : List CpuData) (c : Nat) (q : List Rec) (ds : Nat) : List CpuData :=
  match m with
  | [] => []
  | l :: ls => if l.cpu = c then ⟨c, q, ds⟩ :: ls else l :: updateCpu ls c q ds

/-- Number of records still queued across all scratch files (termination
measure of the merge). -/
def queueSizes (m : List CpuData) : Nat := (m.map (fun l => l.queue.length)).sum

/-- Emptying of the RecordCache by ForcedPop (record.h, out of scope, used
here by its contract): remove and return a record of minimal timestamp, or
none when the cache is empty. -/
def popMin : List Rec → Option (Rec × List Rec)
  | [] => none
  | r :: rs =>
    match popMin rs with
    | none => some (r, [])
    | some (m, rest) => if r.time ≤ m.time then some (r, rs) else some (m, r :: rest)

/-- Phase 1 of SortDataSection (record_file_writer.cpp:238-260): while fewer
than data_section_size_ bytes have been consumed, read the next record of the
data section and route it to its cpu's scratch file.  `src` is the unread
tail of the data section, `cur` the bytes consumed so far.  Oracle pulls: one
per ReadRecordFromFile, one per fopen of a new scratch file, one per
WriteRecordToFile.  Returns the cpu map together with the records the loop
left unread. -/
def phase1 (o : Oracle) (src : List Rec) (cur dss : Nat) (m : List CpuData) :
    Option (List CpuData × List Rec) × Oracle :=
  if cur < dss then
    match src with
    | [] => (none, o)
    | r :: rest =>
      let (okRead, o) := next o
      if !okRead then (none, o)
      else
        let (okOpen, o) := if hasCpu m r.cpu then (true, o) else next o
        if !okOpen then (none, o)
        else
          let (okWrite, o) := next o
          if !okWrite then (none, o)
          else phase1 o rest (cur + r.size) dss (routeRec m r)
  else (some (m, src), o)

/-- Seeding loop of the merge (record_file_writer.cpp:266-277): for every
scratch file, rewind it and move its first record into the cache, updating
its data_size.  Oracle pulls: one per fseek, one per ReadRecordFromFile.
Returns the seeded records in map order together with the updated map. -/
def seed (o : Oracle) : List CpuData → Option (List Rec × List CpuData) × Oracle
  | [] => (some ([], []), o)
  | l :: ls =>
    let (okSeek, o) := next o
    if !okSeek then (none, o)
    else
      let (okRead, o) := next o
      if !okRead then (none, o)
      else
        match l.queue with
        | [] => (none, o)
        | r :: q =>
          match seed o ls with
          | (some (cache, ls2), o) =>
            (some (r :: cache, ⟨l.cpu, q, l.data_size - r.size⟩ :: ls2), o)
          | (none, o) => (none, o)

/-- Merge loop of SortDataSection (record_file_writer.cpp:278-298): pop the
earliest record from the cache, write it back into the data section, and when
the scratch file of that record's cpu still has unread bytes, pull its next
record into the cache.  Oracle pulls: one per WriteRecordToFile, one per
ReadRecordFromFile.  Returns the records written back, in write order.  The
branch where the popped cpu has no map entry cannot arise from
SortDataSection (in the source it would dereference a null CpuData). -/
def mergeLoop (o : Oracle) (cache : List Rec) (m : List CpuData) (out : List Rec) :
    Bool × List Rec × Oracle :=
  match h : popMin cache with
  | none => (true, out, o)
  | some (r, cache2) =>
    let (okWrite, o2) := next o
    if !okWrite then (false, out, o2)
    else
      match hf : findCpu m r.cpu with
      | none => (false, out ++ [r], o2)
      | some l =>
        if 0 < l.data_size then
          let (okRead, o3) := next o2
          if !okRead then (false, out ++ [r], o3)
          else
            match hqe : l.queue with
            | [] => (false, out ++ [r], o3)
            | q0 :: q =>
              mergeLoop o3 (cache2 ++ [q0])
                (updateCpu m r.cpu q (l.data_size - q0.size)) (out ++ [r])
        else mergeLoop o2 cache2 m (out ++ [r])
termination_by cache.length + queueSizes m
decreasing_by
all_goals
  (have key : ∀ (c : List Rec), (popMin c = none → c = []) ∧
      ∀ (x : Rec × List Rec), popMin c = some x → x.2.length + 1 = c.length := by
    intro c
    induction c with
    | nil =>
      constructor
      · intro hx
        rfl
      · intro x hx
        simp [popMin] at hx
    | cons a as ih =>
      constructor
      · intro hx
        rw [popMin] at hx
        cases hp : popMin as with
        | none =>
          rw [hp] at hx
          dsimp only at hx
          exact absurd hx (by simp)
        | some y =>
          obtain ⟨mm, rest⟩ := y
          rw [hp] at hx
          dsimp only at hx
          by_cases hc : a.time ≤ mm.time
          · rw [if_pos hc] at hx
            exact absurd hx (by simp)
          · rw [if_neg hc] at hx
            exact absurd hx (by simp)
      · intro x hx
        rw [popMin] at hx
        cases hp : popMin as with
        | none =>
          have hnil : as = [] := ih.1 hp
          rw [hp] at hx
          dsimp only at hx
          obtain rfl := Option.some.inj hx
          subst hnil
          simp
        | some y =>
          obtain ⟨mm, rest⟩ := y
          rw [hp] at hx
          dsimp only at hx
          by_cases hc : a.time ≤ mm.time
          · rw [if_pos hc] at hx
            obtain rfl := Option.some.inj hx
            simp
          · rw [if_neg hc] at hx
            obtain rfl := Option.some.inj hx
            have hr := ih.2 (mm, rest) hp
            simp only [List.length_cons] at hr ⊢
            omega
   have hlen := (key cache).2 _ h
   simp only [List.length_cons] at hlen
   first
   | (have hupd : ∀ (mm : List CpuData) (c : Nat) (q2 : List Rec) (ds : Nat) (l2 : CpuData),
          findCpu mm c = some l2 →
          queueSizes (updateCpu mm c q2 ds) + l2.queue.length = queueSizes mm + q2.length := by
        intro mm
        induction mm with
        | nil =>
          intro c q2 ds l2 hl
          simp [findCpu] at hl
        | cons x xs ih2 =>
          intro c q2 ds l2 hl
          rw [findCpu, List.find?] at hl
          by_cases hc : x.cpu = c
          · have hb : (x.cpu == c) = true := by simp [hc]
            rw [hb] at hl
            obtain rfl := Option.some.inj hl
            simp [updateCpu, hc, queueSizes]
            omega
          · have hb : (x.cpu == c) = false := by simp [hc]
            rw [hb] at hl
            have hrec := ih2 c q2 ds l2 hl
            simp [updateCpu, hc, queueSizes] at hrec ⊢
            omega
      have hq := hupd m r.cpu q (l.data_size - q0.size) l hf
      rw [hqe] at hq
      simp only [List.length_append, List.length_cons, List.length_nil] at *
      omega)
   | omega)

/-- SortDataSection (record_file_writer.cpp:214-299).  When the retained
attribute lacks the timestamp or the cpu capability the sort is omitted and
the call succeeds without touching the file or performing any I/O (the oracle
is not consumed).  Otherwise: seek to the data section, partition its records
into per-cpu scratch files (phase 1), seek back, seed the cache with one
record per scratch file, and merge by minimal timestamp back into the data
section.  On the failure exits the data section holds the records already
written back; the bytes beyond the write cursor, old record fragments in the
real file, are not representable at record granularity and no claim reads
them. -/
def SortDataSection (o : Oracle) (w : SortW) : Bool × SortW × Oracle :=
  if ¬(IsTimestampSupported w.event_attr_ = true ∧ IsCpuSupported w.event_attr_ = true) then
    (true, w, o)
  else
    let (okSeek, o) := next o
    if !okSeek then (false, w, o)
    else
      match phase1 o w.dataSec 0 w.data_section_size_ [] with
      | (none, o) => (false, w, o)
      | (some (m, leftover), o) =>
        let (okSeek2, o) := next o
        if !okSeek2 then (false, w, o)
        else
          match seed o m with
          | (none, o) => (false, w, o)
          | (some (cache, m2), o) =>
            match mergeLoop o cache m2 [] with
            | (false, out, o) => (false, { w with dataSec := out ++ leftover }, o)
            | (true, out, o) => (true, { w with dataSec := out ++ leftover }, o)

/-- Concrete attribute with both capabilities, used by the instance theorems. -/
def attr0 : EventAttr := ⟨true, true, [1, 2]⟩

/-- Concrete attribute lacking the timestamp capability. -/
def attrNoTime : EventAttr := ⟨false, true, []⟩

/-- Freshly constructed writer state (record_file_writer.cpp:54-63 zeroes all
offsets and counters; the file is empty). -/
def w0 : WS := ⟨[], 0, 0, 0, 0, 0, 0, 0, [], attr0⟩

/-- Concrete small record (8 bytes). -/
def r0 : Record := ⟨9, [1, 0, 0, 0, 0, 0, 8, 0]⟩

/-- Concrete oversized record of a simpleperf-own type. -/
def rBig : Record := ⟨32771, List.replicate 65544 7⟩

/-- Record of 8 bytes with the given timestamp and cpu. -/
def mkRec (t c : Nat) : Rec := ⟨t, c, 8, []⟩

/-- Sort-tier state without the timestamp capability. -/
def sw0 : SortW := ⟨[mkRec 1 0], 8, attrNoTime⟩

/-- Sort-tier state holding three interleaved lanes, lane 0 = [1,4,9],
lane 1 = [2,3,8], lane 2 = [5,6,7], 72 bytes in total. -/
def sw1 : SortW :=
  ⟨[mkRec 1 0, mkRec 2 1, mkRec 5 2, mkRec 4 0, mkRec 3 1,
    mkRec 6 2, mkRec 9 0, mkRec 8 1, mkRec 7 2], 72, attr0⟩

/-- Writer state whose declared feature count is exhausted. -/
def wFull : WS := ⟨[], 0, 0, 0, 0, 0, 3, 3, [], attr0⟩

/-- Writer state right after WriteFeatureHeader(1) on an empty data section:
a 16-byte zeroed descriptor table occupies offsets 0..16. -/
def wFT : WS := ⟨List.replicate 16 0, 16, 0, 0, 0, 0, 1, 0, [], attr0⟩

/-- Ordering of records by timestamp, the key of the k-way merge. -/
def timeLE (a b : Rec) : Prop := a.time ≤ b.time

instance : DecidableRel timeLE := fun a b => Nat.decLe a.time b.time

/-- All records still queued in the scratch files, in map order. -/
def joinQ (m : List CpuData) : List Rec := (m.map (fun l => l.queue)).flatten

/-- Well-formedness of one scratch file: the queue is time-sorted, every
queued record belongs to this cpu and has a positive size, and data_size
counts exactly the unread bytes, as the source maintains. -/
def CpuWF (l : CpuData) : Prop :=
  l.queue.Sorted timeLE ∧ (∀ x ∈ l.queue, x.cpu = l.cpu) ∧
  l.data_size = sizeSum l.queue ∧ ∀ x ∈ l.queue, 0 < x.size

/-- Invariant of the merge loop: scratch files are well formed with pairwise
distinct cpus, every cached record's cpu has a map entry, and every scratch
file with unread records has a cached record of its cpu bounding its queue
from below. -/
def MergeInv (cache : List Rec) (m : List CpuData) : Prop :=
  (∀ l ∈ m, CpuWF l) ∧
  (m.map (fun l => l.cpu)).Nodup ∧
  (∀ x ∈ cache, ∃ l ∈ m, l.cpu = x.cpu) ∧
  (∀ l ∈ m, l.queue ≠ [] → ∃ x ∈ cache, x.cpu = l.cpu ∧ ∀ y ∈ l.queue, timeLE x y)

/-! Helper lemmas about the byte-level file model. -/

theorem next_nil : next [] = (true, []) := rfl

theorem writeAt_eof (f d : List Nat) : writeAt f f.length d = f ++ d := by
  simp [writeAt]

theorem length_writeAt (f : List Nat) (p : Nat) (d : List Nat) :
    (writeAt f p d).length = max f.length (p + d.length) := by
  simp [writeAt]
  omega

theorem writeAt_region (f : List Nat) (p : Nat) (d : List Nat) :
    ((writeAt f p d).drop p).take d.length = d := by
  rw [writeAt, List.append_assoc]
  have h1 : (List.take p (f ++ List.replicate (p - f.length) 0)).length = p := by
    simp
    omega
  generalize hA : List.take p (f ++ List.replicate (p - f.length) 0) = A at *
  rw [← h1, List.drop_left, List.take_left]

theorem writeAt_suffix (f : List Nat) (p : Nat) (d : List Nat) (L : Nat)
    (h1 : p + d.length ≤ L) (h2 : L ≤ f.length) :
    (writeAt f p d).drop L = f.drop L := by
  have hrep : p - f.length = 0 := by omega
  rw [writeAt, hrep]
  simp only [List.replicate_zero, List.append_nil]
  rw [List.append_assoc, List.drop_append_eq_append_drop, List.drop_append_eq_append_drop]
  have e1 : List.drop L (List.take p f) = [] := by
    apply List.drop_eq_nil_of_le
    simp
    omega
  have e2 : List.drop (L - (List.take p f).length) d = [] := by
    apply List.drop_eq_nil_of_le
    simp
    omega
  rw [e1, e2]
  simp only [List.nil_append]
  rw [List.drop_drop]
  congr 1
  simp
  omega

/-! Claim C4. -/

/-- C4: when the retained attribute configuration lacks either the timestamp
capability or the cpu (lane) capability, SortDataSection returns success and
leaves the whole state unchanged, performing no I/O at all (the oracle is
returned untouched). -/
theorem sortDataSection_skip (o : Oracle) (w : SortW)
    (hcap : IsTimestampSupported w.event_attr_ = false ∨
      IsCpuSupported w.event_attr_ = false) :
    SortDataSection o w = (true, w, o) := by
  rw [SortDataSection, if_pos]
  rcases hcap with h | h <;> simp [h]

/-- Instance of sortDataSection_skip at a concrete configuration lacking the
timestamp capability. -/
theorem sortDataSection_skip_witness : SortDataSection [] sw0 = (true, sw0, []) :=
  sortDataSection_skip [] sw0 (by decide)

/-! Claim C5. -/

/-- C5: SortDataSection never changes data_section_size_, on every execution
path, success or failure, for every I/O outcome: the merge writes records
back through WriteRecordToFile, which bypasses the size-accounting WriteData
path, and no branch of the method assigns the field. -/
theorem sortDataSection_preserves_data_section_size (o : Oracle) (w : SortW) :
    ((SortDataSection o w).2.1).data_section_size_ = w.data_section_size_ := by
  rw [SortDataSection]
  repeat first
  | rfl
  | split

/-! Claim C2 (code bug in the source). -/

/-- C2 fails on the code: for a record within the size limit, WriteRecord
discards the result of WriteData (record_file_writer.cpp:129-130) and returns
success even when the underlying fwrite failed; here the single write fails
(oracle [false]), nothing is written, data_section_size_ is not advanced, and
WriteRecord still reports ok. -/
theorem writeRecord_swallows_write_failure :
    (WriteRecord [false] w0 r0).1 = WRes.ok ∧ (WriteRecord [false] w0 r0).2.1 = w0 := by
  constructor <;> rfl

/-! Case-analysis lemmas for the stateful operations. -/

theorem Write_cases (o : Oracle) (w : WS) (d : List Nat) :
    ∃ o2, Write o w d = (false, w, o2) ∨
      Write o w d = (true, { w with file := writeAt w.file w.pos d, pos := w.pos + d.length }, o2) := by
  rcases o with _ | ⟨b, o⟩
  · exact ⟨[], Or.inr rfl⟩
  · cases b
    · exact ⟨o, Or.inl rfl⟩
    · exact ⟨o, Or.inr rfl⟩

theorem fseekSet_cases (o : Oracle) (w : WS) (t : Nat) :
    ∃ o2, fseekSet o w t = (false, w, o2) ∨ fseekSet o w t = (true, { w with pos := t }, o2) := by
  rcases o with _ | ⟨b, o⟩
  · exact ⟨[], Or.inr rfl⟩
  · cases b
    · exact ⟨o, Or.inl rfl⟩
    · exact ⟨o, Or.inr rfl⟩

theorem WriteData_cases (o : Oracle) (w : WS) (d : List Nat) :
    ∃ o2, WriteData o w d = (false, w, o2) ∨
      WriteData o w d = (true, { w with
        file := writeAt w.file w.pos d,
        pos := w.pos + d.length,
        data_section_size_ := w.data_section_size_ + d.length }, o2) := by
  rcases o with _ | ⟨b, o⟩
  · exact ⟨[], Or.inr rfl⟩
  · cases b
    · exact ⟨o, Or.inl rfl⟩
    · exact ⟨o, Or.inr rfl⟩

theorem SeekFileEnd_cases (o : Oracle) (w : WS) :
    (∃ o2, SeekFileEnd o w = (false, 0, w, o2)) ∨
    (∃ o2, SeekFileEnd o w = (false, 0, { w with pos := w.file.length }, o2)) ∨
    (∃ o2, SeekFileEnd o w = (true, w.file.length, { w with pos := w.file.length }, o2)) := by
  rcases o with _ | ⟨b, o⟩
  · right; right; exact ⟨[], rfl⟩
  · cases b
    · left; exact ⟨o, rfl⟩
    · rcases o with _ | ⟨b2, o⟩
      · right; right; exact ⟨[], rfl⟩
      · cases b2
        · right; left; exact ⟨o, rfl⟩
        · right; right; exact ⟨o, rfl⟩

theorem WriteFeatureBegin_cases (o : Oracle) (w : WS) :
    (WriteFeatureBegin o w = (.fatal, 0, w, o) ∧ w.feature_count_ ≤ w.current_feature_index_) ∨
    (w.current_feature_index_ < w.feature_count_ ∧
      ((∃ o2, WriteFeatureBegin o w = (.fail, 0, w, o2)) ∨
       (∃ o2, WriteFeatureBegin o w = (.fail, 0, { w with pos := w.file.length }, o2)) ∨
       (∃ o2, WriteFeatureBegin o w = (.ok, w.file.length, { w with pos := w.file.length }, o2)))) := by
  by_cases hc : w.feature_count_ ≤ w.current_feature_index_
  · left
    exact ⟨by rw [WriteFeatureBegin, if_pos hc], hc⟩
  · right
    refine ⟨by omega, ?_⟩
    rw [WriteFeatureBegin, if_neg hc]
    rcases SeekFileEnd_cases o w with ⟨o2, h⟩ | ⟨o2, h⟩ | ⟨o2, h⟩ <;> rw [h]
    · left
      exact ⟨o2, rfl⟩
    · right; left
      exact ⟨o2, rfl⟩
    · right; right
      exact ⟨o2, rfl⟩

theorem WriteFeatureEnd_ok (o : Oracle) (w : WS) (feat s0 : Nat)
    (h : (WriteFeatureEnd o w feat s0).1 = true) :
    (WriteFeatureEnd o w feat s0).2.1 =
      { w with
          file := writeAt w.file
            (w.data_section_offset_ + w.data_section_size_ +
              w.current_feature_index_ * SECTION_DESC_SIZE)
            (u64le s0 ++ u64le (w.file.length - s0)),
          pos := w.data_section_offset_ + w.data_section_size_ +
              w.current_feature_index_ * SECTION_DESC_SIZE + 16,
          current_feature_index_ := w.current_feature_index_ + 1,
          features_ := w.features_ ++ [feat] } := by
  rw [WriteFeatureEnd] at h ⊢
  rcases SeekFileEnd_cases o w with ⟨o2, h2⟩ | ⟨o2, h2⟩ | ⟨o2, h2⟩ <;> rw [h2] at h ⊢
  · simp at h
  · simp at h
  · dsimp only at h ⊢
    rcases fseekSet_cases o2 { w with pos := w.file.length }
        (w.data_section_offset_ + w.data_section_size_ +
          w.current_feature_index_ * SECTION_DESC_SIZE) with ⟨o3, h3 | h3⟩ <;>
      (rw [h3] at h ⊢; dsimp only at h ⊢)
    · simp at h
    · rcases Write_cases o3 _ (u64le s0 ++ u64le (w.file.length - s0)) with ⟨o4, h4 | h4⟩ <;>
        (rw [h4] at h ⊢; dsimp only at h ⊢)
      · simp at h
      · simp [u64le]

/-! Equation-form lemmas: given the outcome of one operation, the resulting
state in explicit form. -/

theorem Write_eq_true {o : Oracle} {w : WS} {d : List Nat} {w1 : WS} {o1 : Oracle}
    (h : Write o w d = (true, w1, o1)) :
    w1 = { w with file := writeAt w.file w.pos d, pos := w.pos + d.length } := by
  rcases Write_cases o w d with ⟨o2, h2 | h2⟩ <;> rw [h2] at h <;> simp at h
  exact h.1.symm

theorem Write_eq_false {o : Oracle} {w : WS} {d : List Nat} {w1 : WS} {o1 : Oracle}
    (h : Write o w d = (false, w1, o1)) : w1 = w := by
  rcases Write_cases o w d with ⟨o2, h2 | h2⟩ <;> rw [h2] at h <;> simp at h
  exact h.1.symm

theorem fseekSet_eq_true {o : Oracle} {w : WS} {t : Nat} {w1 : WS} {o1 : Oracle}
    (h : fseekSet o w t = (true, w1, o1)) : w1 = { w with pos := t } := by
  rcases fseekSet_cases o w t with ⟨o2, h2 | h2⟩ <;> rw [h2] at h <;> simp at h
  exact h.1.symm

theorem fseekSet_eq_false {o : Oracle} {w : WS} {t : Nat} {w1 : WS} {o1 : Oracle}
    (h : fseekSet o w t = (false, w1, o1)) : w1 = w := by
  rcases fseekSet_cases o w t with ⟨o2, h2 | h2⟩ <;> rw [h2] at h <;> simp at h
  exact h.1.symm

theorem WriteData_eq_true {o : Oracle} {w : WS} {d : List Nat} {w1 : WS} {o1 : Oracle}
    (h : WriteData o w d = (true, w1, o1)) :
    w1 = { w with file := writeAt w.file w.pos d, pos := w.pos + d.length,
                  data_section_size_ := w.data_section_size_ + d.length } := by
  rcases WriteData_cases o w d with ⟨o2, h2 | h2⟩ <;> rw [h2] at h <;> simp at h
  exact h.1.symm

theorem WriteData_eq_false {o : Oracle} {w : WS} {d : List Nat} {w1 : WS} {o1 : Oracle}
    (h : WriteData o w d = (false, w1, o1)) : w1 = w := by
  rcases WriteData_cases o w d with ⟨o2, h2 | h2⟩ <;> rw [h2] at h <;> simp at h
  exact h.1.symm

theorem WriteFeatureBegin_eq_ok {o : Oracle} {w : WS} {off : Nat} {w1 : WS} {o1 : Oracle}
    (h : WriteFeatureBegin o w = (WRes.ok, off, w1, o1)) :
    off = w.file.length ∧ w1 = { w with pos := w.file.length } ∧
      w.current_feature_index_ < w.feature_count_ := by
  rcases WriteFeatureBegin_cases o w with ⟨hb, hc⟩ | ⟨hc, ⟨o2, hb⟩ | ⟨o2, hb⟩ | ⟨o2, hb⟩⟩ <;>
    rw [hb] at h <;> simp at h
  exact ⟨h.1.symm, h.2.1.symm, hc⟩

theorem WriteFeatureEnd_eq_ok {o : Oracle} {w : WS} {feat s0 : Nat} {w2 : WS} {o2 : Oracle}
    (h : WriteFeatureEnd o w feat s0 = (true, w2, o2)) :
    w2 = { w with
      file := writeAt w.file
        (w.data_section_offset_ + w.data_section_size_ +
          w.current_feature_index_ * SECTION_DESC_SIZE)
        (u64le s0 ++ u64le (w.file.length - s0)),
      pos := w.data_section_offset_ + w.data_section_size_ +
          w.current_feature_index_ * SECTION_DESC_SIZE + 16,
      current_feature_index_ := w.current_feature_index_ + 1,
      features_ := w.features_ ++ [feat] } := by
  have h1 : (WriteFeatureEnd o w feat s0).1 = true := by rw [h]
  have h2 := WriteFeatureEnd_ok o w feat s0 h1
  rw [h] at h2
  exact h2

/-! Claim C8. -/

/-- C8: the feature-write contract.  Writing one more feature than declared is
a fatal CHECK failure (process abort), never a silent truncation or a
recoverable error result: once current_feature_index_ has reached
feature_count_, WriteFeatureBegin aborts without touching the state; while the
index is below the declared count the CHECK cannot fire; every successful
feature write (WriteFeatureString here) advances current_feature_index_ by
exactly one; and WriteFeatureHeader(n) starts the index at 0 with
feature_count_ = n — so with at most n feature writes after the header the
assertion always holds, and the (n+1)-th write is fatal. -/
theorem writeFeatureBegin_contract (o : Oracle) (w : WS) (feat n : Nat) (s : List Nat) :
    (w.feature_count_ ≤ w.current_feature_index_ →
      WriteFeatureBegin o w = (WRes.fatal, 0, w, o)) ∧
    (w.current_feature_index_ < w.feature_count_ → (WriteFeatureBegin o w).1 ≠ WRes.fatal) ∧
    ((WriteFeatureString o w feat s).1 = WRes.ok →
      ((WriteFeatureString o w feat s).2.1).current_feature_index_ =
        w.current_feature_index_ + 1) ∧
    ((WriteFeatureHeader o w n).2.1).feature_count_ = n ∧
    ((WriteFeatureHeader o w n).2.1).current_feature_index_ = 0 := by
  refine ⟨?_, ?_, ?_, ?_⟩
  · intro h
    rw [WriteFeatureBegin, if_pos h]
  · intro h
    rcases WriteFeatureBegin_cases o w with ⟨hb, hc⟩ | ⟨hc, hrest⟩
    · omega
    · rcases hrest with ⟨o2, hb⟩ | ⟨o2, hb⟩ | ⟨o2, hb⟩ <;> rw [hb] <;> simp
  · intro h
    rw [WriteFeatureString] at h ⊢
    split at h
    · simp at h
    · simp at h
    · rename_i start w1 o1 heq1
      dsimp only at h ⊢
      obtain ⟨hstart, hw1, hlt⟩ := WriteFeatureBegin_eq_ok heq1
      split at h
      · simp at h
      · rename_i w2 o2 heq2
        split at h
        · simp at h
        · rename_i w3 o3 heq3
          split at h
          · simp at h
          · rename_i w4 o4 heq4
            dsimp only
            have e4 := WriteFeatureEnd_eq_ok heq4
            have e3 := Write_eq_true heq3
            have e2 := Write_eq_true heq2
            rw [e4, e3, e2, hw1]
  · constructor <;>
      (rw [WriteFeatureHeader]
       dsimp only
       split <;> rename_i wA oA heqA
       · rw [fseekSet_eq_false heqA]
       · rw [fseekSet_eq_true heqA]
         rcases Write_cases oA _ (List.replicate (n * SECTION_DESC_SIZE) 0) with ⟨o3, h3 | h3⟩ <;>
           rw [h3] <;> simp)

/-- Instances of writeFeatureBegin_contract: a writer with all 3 declared
features written aborts on a 4th begin; below the count begin is not fatal;
and a successful feature-string write bumps the index from 0 to 1. -/
theorem writeFeatureBegin_contract_witness :
    WriteFeatureBegin [] wFull = (WRes.fatal, 0, wFull, []) ∧
    (WriteFeatureBegin [] wFT).1 ≠ WRes.fatal ∧
    ((WriteFeatureString [] wFT 2 [120]).2.1).current_feature_index_ =
      wFT.current_feature_index_ + 1 :=
  ⟨(writeFeatureBegin_contract [] wFull 0 0 []).1 (by decide),
   (writeFeatureBegin_contract [] wFT 0 0 []).2.1 (by decide),
   (writeFeatureBegin_contract [] wFT 2 0 [120]).2.2.1 (by decide)⟩

/-! Claim C9. -/

/-- C9: payload layout of WriteFeatureString.  On success the bytes appended
at the former end of file are a 32-bit little-endian length prefix whose value
is the string length plus one rounded up to a multiple of 64, followed by
exactly that many bytes: the characters of s, then zero padding.  The first
hypothesis keeps the uint32_t cast of the source an identity; the second
places the descriptor slot written by WriteFeatureEnd inside the
already-written part of the file (where WriteFeatureHeader reserved it), as
holds in any well-formed call sequence. -/
theorem writeFeatureString_payload (o : Oracle) (w : WS) (feat : Nat) (s : List Nat)
    (hs : s.length + 64 < 2 ^ 32)
    (htab : w.data_section_offset_ + w.data_section_size_ +
      (w.current_feature_index_ + 1) * SECTION_DESC_SIZE ≤ w.file.length)
    (hok : (WriteFeatureString o w feat s).1 = WRes.ok) :
    ∃ len, len = Align (s.length + 1) 64 ∧ len % 64 = 0 ∧ s.length + 1 ≤ len ∧
      ((WriteFeatureString o w feat s).2.1).file.drop w.file.length =
        u32le len ++ (s ++ List.replicate (len - s.length) 0) ∧
      (s ++ List.replicate (len - s.length) 0).length = len := by
  have hA1 : Align (s.length + 1) 64 < 2 ^ 32 := by
    rw [Align]
    omega
  have hmod : Align (s.length + 1) 64 % 2 ^ 32 = Align (s.length + 1) 64 :=
    Nat.mod_eq_of_lt hA1
  have hge : s.length + 1 ≤ Align (s.length + 1) 64 := by
    rw [Align]
    omega
  refine ⟨Align (s.length + 1) 64, rfl, ?_, hge, ?_, ?_⟩
  · rw [Align]
    exact Nat.mul_mod_left _ 64
  · rw [WriteFeatureString] at hok ⊢
    split at hok
    · simp at hok
    · simp at hok
    · rename_i start w1 o1 heq1
      dsimp only at hok ⊢
      obtain ⟨hstart, hw1, hlt⟩ := WriteFeatureBegin_eq_ok heq1
      split at hok
      · simp at hok
      · rename_i w2 o2 heq2
        split at hok
        · simp at hok
        · rename_i w3 o3 heq3
          split at hok
          · simp at hok
          · rename_i w4 o4 heq4
            dsimp only
            have e4 := WriteFeatureEnd_eq_ok heq4
            have e3 := Write_eq_true heq3
            have e2 := Write_eq_true heq2
            rw [e4, e3, e2, hw1, hmod]
            dsimp only
            have htake : List.take (Align (s.length + 1) 64) s = s :=
              List.take_of_length_le (by omega)
            rw [htake, writeAt_eof]
            have hlen2 : w.file.length + (u32le (Align (s.length + 1) 64)).length =
                (w.file ++ u32le (Align (s.length + 1) 64)).length := by
              simp
            rw [hlen2, writeAt_eof]
            rw [writeAt_suffix]
            · rw [List.append_assoc, List.drop_left]
            · simp [u64le, SECTION_DESC_SIZE] at htab ⊢
              omega
            · simp
  · simp
    omega

/-- Instance of writeFeatureString_payload: writing the string "x86_64" (6
characters) as a feature of wFT appends a prefix of value 64 and a 64-byte
payload. -/
theorem writeFeatureString_payload_witness :
    ∃ len, len = Align (6 + 1) 64 ∧ len % 64 = 0 ∧ 6 + 1 ≤ len ∧
      ((WriteFeatureString [] wFT 2 [120, 56, 54, 95, 54, 52]).2.1).file.drop
          wFT.file.length =
        u32le len ++ ([120, 56, 54, 95, 54, 52] ++ List.replicate (len - 6) 0) ∧
      (([120, 56, 54, 95, 54, 52] : List Nat) ++ List.replicate (len - 6) 0).length = len :=
  writeFeatureString_payload [] wFT 2 [120, 56, 54, 95, 54, 52]
    (by norm_num) (by decide) (by decide)

/-! Field-preservation lemmas for the attribute-section loops. -/

theorem ftello_val (o : Oracle) (w : WS) : (ftello o w).2.1 = w.pos := by
  rcases o with _ | ⟨b, o⟩ <;> rfl

theorem writeIdSections_core (o : Oracle) (w : WS) (as : List EventAttrWithId) :
    ((writeIdSections o w as).2.1).attr_section_offset_ = w.attr_section_offset_ ∧
    ((writeIdSections o w as).2.1).attr_section_size_ = w.attr_section_size_ ∧
    ((writeIdSections o w as).2.1).data_section_offset_ = w.data_section_offset_ ∧
    ((writeIdSections o w as).2.1).event_attr_ = w.event_attr_ ∧
    w.pos ≤ ((writeIdSections o w as).2.1).pos := by
  induction as generalizing o w with
  | nil => simp [writeIdSections]
  | cons a rest ih =>
    rw [writeIdSections]
    rcases Write_cases o w ((a.ids.map u64le).flatten) with ⟨o2, h2 | h2⟩ <;> rw [h2]
    · simp
    · dsimp only
      obtain ⟨i1, i2, i3, i4, i5⟩ := ih o2 { w with
        file := writeAt w.file w.pos ((a.ids.map u64le).flatten),
        pos := w.pos + ((a.ids.map u64le).flatten).length }
      simp only at i1 i2 i3 i4 i5
      refine ⟨i1, i2, i3, i4, by omega⟩

theorem writeIdSections_fields {o : Oracle} {w : WS} {as : List EventAttrWithId}
    {b : Bool} {w1 : WS} {o1 : Oracle} (h : writeIdSections o w as = (b, w1, o1)) :
    w1.attr_section_offset_ = w.attr_section_offset_ ∧
    w1.attr_section_size_ = w.attr_section_size_ ∧
    w1.data_section_offset_ = w.data_section_offset_ ∧
    w1.event_attr_ = w.event_attr_ ∧ w.pos ≤ w1.pos := by
  have hc := writeIdSections_core o w as
  rw [h] at hc
  exact hc

theorem writeFileAttrs_core (o : Oracle) (w : WS) (idOff : Nat) (as : List EventAttrWithId) :
    ((writeFileAttrs o w idOff as).2.1).attr_section_offset_ = w.attr_section_offset_ ∧
    ((writeFileAttrs o w idOff as).2.1).attr_section_size_ = w.attr_section_size_ ∧
    ((writeFileAttrs o w idOff as).2.1).data_section_offset_ = w.data_section_offset_ ∧
    ((writeFileAttrs o w idOff as).2.1).event_attr_ = w.event_attr_ ∧
    w.pos ≤ ((writeFileAttrs o w idOff as).2.1).pos := by
  induction as generalizing o w idOff with
  | nil => simp [writeFileAttrs]
  | cons a rest ih =>
    rw [writeFileAttrs]
    rcases Write_cases o w (a.attr.bytes ++ u64le idOff ++ u64le (8 * a.ids.length)) with
      ⟨o2, h2 | h2⟩ <;> rw [h2]
    · simp
    · dsimp only
      obtain ⟨i1, i2, i3, i4, i5⟩ := ih o2 { w with
        file := writeAt w.file w.pos (a.attr.bytes ++ u64le idOff ++ u64le (8 * a.ids.length)),
        pos := w.pos + (a.attr.bytes ++ u64le idOff ++ u64le (8 * a.ids.length)).length }
        (idOff + 8 * a.ids.length)
      simp only at i1 i2 i3 i4 i5
      refine ⟨i1, i2, i3, i4, by omega⟩

theorem writeFileAttrs_fields {o : Oracle} {w : WS} {idOff : Nat} {as : List EventAttrWithId}
    {b : Bool} {w1 : WS} {o1 : Oracle} (h : writeFileAttrs o w idOff as = (b, w1, o1)) :
    w1.attr_section_offset_ = w.attr_section_offset_ ∧
    w1.attr_section_size_ = w.attr_section_size_ ∧
    w1.data_section_offset_ = w.data_section_offset_ ∧
    w1.event_attr_ = w.event_attr_ ∧ w.pos ≤ w1.pos := by
  have hc := writeFileAttrs_core o w idOff as
  rw [h] at hc
  exact hc

/-! Claim C7. -/

/-- C7: WriteAttrSection fails on an empty attribute list, and whenever it
fails (empty list, or any seek / ftell / write failure at any point), the
section offset fields and the retained attribute configuration are left
exactly as they were before the call: they are assigned only after every
seek and write has succeeded. -/
theorem writeAttrSection_error_handling (o : Oracle) (w : WS)
    (attrs : List EventAttrWithId) :
    (WriteAttrSection o w []).1 = false ∧
    ((WriteAttrSection o w attrs).1 = false →
      ((WriteAttrSection o w attrs).2.1).attr_section_offset_ = w.attr_section_offset_ ∧
      ((WriteAttrSection o w attrs).2.1).attr_section_size_ = w.attr_section_size_ ∧
      ((WriteAttrSection o w attrs).2.1).data_section_offset_ = w.data_section_offset_ ∧
      ((WriteAttrSection o w attrs).2.1).event_attr_ = w.event_attr_) := by
  constructor
  · rfl
  · intro h
    match attrs with
    | [] => exact ⟨rfl, rfl, rfl, rfl⟩
    | a0 :: rest =>
      rw [WriteAttrSection] at h ⊢
      split at h
      · rename_i wA oA heqA
        rw [fseekSet_eq_false heqA]
        exact ⟨rfl, rfl, rfl, rfl⟩
      · rename_i wA oA heqA
        have hA := fseekSet_eq_true heqA
        split at h
        · rw [hA]
          exact ⟨rfl, rfl, rfl, rfl⟩
        · rename_i idOff oB heqB
          split at h
          · rename_i wC oC heqC
            obtain ⟨c1, c2, c3, c4, c5⟩ := writeIdSections_fields heqC
            rw [hA] at c1 c2 c3 c4
            simp only at c1 c2 c3 c4
            exact ⟨c1, c2, c3, c4⟩
          · rename_i wC oC heqC
            obtain ⟨c1, c2, c3, c4, c5⟩ := writeIdSections_fields heqC
            rw [hA] at c1 c2 c3 c4
            simp only at c1 c2 c3 c4
            split at h
            · exact ⟨c1, c2, c3, c4⟩
            · rename_i attrOff oD heqD
              split at h
              · rename_i wE oE heqE
                obtain ⟨e1, e2, e3, e4, e5⟩ := writeFileAttrs_fields heqE
                rw [c1] at e1
                rw [c2] at e2
                rw [c3] at e3
                rw [c4] at e4
                exact ⟨e1, e2, e3, e4⟩
              · rename_i wE oE heqE
                split at h
                · obtain ⟨e1, e2, e3, e4, e5⟩ := writeFileAttrs_fields heqE
                  rw [c1] at e1
                  rw [c2] at e2
                  rw [c3] at e3
                  rw [c4] at e4
                  exact ⟨e1, e2, e3, e4⟩
                · simp at h

/-- Instance of writeAttrSection_error_handling: with the very first seek
failing, the call fails and the offsets and retained attribute of a writer
with nonzero fields survive untouched. -/
theorem writeAttrSection_error_handling_witness :
    ((WriteAttrSection [false] wFT [⟨attr0, [5]⟩]).2.1).attr_section_offset_ =
        wFT.attr_section_offset_ ∧
      ((WriteAttrSection [false] wFT [⟨attr0, [5]⟩]).2.1).attr_section_size_ =
        wFT.attr_section_size_ ∧
      ((WriteAttrSection [false] wFT [⟨attr0, [5]⟩]).2.1).data_section_offset_ =
        wFT.data_section_offset_ ∧
      ((WriteAttrSection [false] wFT [⟨attr0, [5]⟩]).2.1).event_attr_ = wFT.event_attr_ :=
  (writeAttrSection_error_handling [false] wFT [⟨attr0, [5]⟩]).2 (by decide)

/-! Offset-preservation across the record and feature writing operations. -/

theorem splitLoop_offsets (left : Nat) : ∀ (o : Oracle) (w : WS) (bin : List Nat) (p : Nat),
    ((splitLoop o w bin p left).2.1).attr_section_offset_ = w.attr_section_offset_ ∧
    ((splitLoop o w bin p left).2.1).attr_section_size_ = w.attr_section_size_ ∧
    ((splitLoop o w bin p left).2.1).data_section_offset_ = w.data_section_offset_ := by
  induction left using Nat.strong_induction_on with
  | _ left ih =>
    intro o w bin p
    rw [splitLoop]
    split
    · rename_i hl
      dsimp only
      rcases WriteData_cases o w (headerBytes SIMPLE_PERF_RECORD_SPLIT
          (min (RECORD_SIZE_LIMIT - RECORD_HEADER_SIZE) left + RECORD_HEADER_SIZE)) with
        ⟨oA, hA | hA⟩ <;> rw [hA]
      · exact ⟨rfl, rfl, rfl⟩
      · dsimp only
        rcases WriteData_cases oA _
            ((bin.drop p).take (min (RECORD_SIZE_LIMIT - RECORD_HEADER_SIZE) left)) with
          ⟨oB, hB | hB⟩ <;> rw [hB]
        · exact ⟨rfl, rfl, rfl⟩
        · dsimp only
          have hdec : left - min (RECORD_SIZE_LIMIT - RECORD_HEADER_SIZE) left < left := by
            simp only [RECORD_SIZE_LIMIT, RECORD_HEADER_SIZE]
            omega
          obtain ⟨j1, j2, j3⟩ := ih _ hdec oB _ bin
            (p + min (RECORD_SIZE_LIMIT - RECORD_HEADER_SIZE) left)
          exact ⟨by rw [j1], by rw [j2], by rw [j3]⟩
    · exact ⟨rfl, rfl, rfl⟩

theorem WriteRecord_offsets (o : Oracle) (w : WS) (r : Record) :
    ((WriteRecord o w r).2.1).attr_section_offset_ = w.attr_section_offset_ ∧
    ((WriteRecord o w r).2.1).attr_section_size_ = w.attr_section_size_ ∧
    ((WriteRecord o w r).2.1).data_section_offset_ = w.data_section_offset_ := by
  rw [WriteRecord]
  split
  · rcases WriteData_cases o w r.binary with ⟨oA, hA | hA⟩ <;> rw [hA] <;>
      exact ⟨rfl, rfl, rfl⟩
  · split
    · exact ⟨rfl, rfl, rfl⟩
    · rcases hS : splitLoop o w r.binary 0 r.size with ⟨bS, wS, oS⟩
      obtain ⟨j1, j2, j3⟩ := splitLoop_offsets r.size o w r.binary 0
      rw [hS] at j1 j2 j3
      simp only at j1 j2 j3
      cases bS
      · exact ⟨j1, j2, j3⟩
      · dsimp only
        rcases WriteData_cases oS wS (headerBytes SIMPLE_PERF_RECORD_SPLIT_END
            RECORD_HEADER_SIZE) with ⟨oB, hB | hB⟩ <;> rw [hB]
        · exact ⟨j1, j2, j3⟩
        · dsimp only
          exact ⟨j1, j2, j3⟩

theorem WriteFeatureHeader_offsets (o : Oracle) (w : WS) (n : Nat) :
    ((WriteFeatureHeader o w n).2.1).attr_section_offset_ = w.attr_section_offset_ ∧
    ((WriteFeatureHeader o w n).2.1).attr_section_size_ = w.attr_section_size_ ∧
    ((WriteFeatureHeader o w n).2.1).data_section_offset_ = w.data_section_offset_ := by
  rw [WriteFeatureHeader]
  dsimp only
  split <;> rename_i wA oA heqA
  · rw [fseekSet_eq_false heqA]
    exact ⟨rfl, rfl, rfl⟩
  · rw [fseekSet_eq_true heqA]
    rcases Write_cases oA _ (List.replicate (n * SECTION_DESC_SIZE) 0) with ⟨oB, hB | hB⟩ <;>
      rw [hB] <;> simp

theorem WriteFeatureBegin_offsets (o : Oracle) (w : WS) :
    ((WriteFeatureBegin o w).2.2.1).attr_section_offset_ = w.attr_section_offset_ ∧
    ((WriteFeatureBegin o w).2.2.1).attr_section_size_ = w.attr_section_size_ ∧
    ((WriteFeatureBegin o w).2.2.1).data_section_offset_ = w.data_section_offset_ := by
  rcases WriteFeatureBegin_cases o w with ⟨hb, hc⟩ | ⟨hc, ⟨o2, hb⟩ | ⟨o2, hb⟩ | ⟨o2, hb⟩⟩ <;>
    rw [hb] <;> exact ⟨rfl, rfl, rfl⟩

theorem WriteFeatureEnd_offsets (o : Oracle) (w : WS) (feat s0 : Nat) :
    ((WriteFeatureEnd o w feat s0).2.1).attr_section_offset_ = w.attr_section_offset_ ∧
    ((WriteFeatureEnd o w feat s0).2.1).attr_section_size_ = w.attr_section_size_ ∧
    ((WriteFeatureEnd o w feat s0).2.1).data_section_offset_ = w.data_section_offset_ := by
  rw [WriteFeatureEnd]
  rcases SeekFileEnd_cases o w with ⟨o2, h2⟩ | ⟨o2, h2⟩ | ⟨o2, h2⟩ <;> rw [h2] <;> dsimp only
  · exact ⟨rfl, rfl, rfl⟩
  · exact ⟨rfl, rfl, rfl⟩
  · split <;> rename_i wA oA heqA
    · rw [fseekSet_eq_false heqA]
      exact ⟨rfl, rfl, rfl⟩
    · rw [fseekSet_eq_true heqA]
      rcases Write_cases oA _ (u64le s0 ++ u64le (w.file.length - s0)) with ⟨oB, hB | hB⟩ <;>
        rw [hB] <;> dsimp only
      · exact ⟨rfl, rfl, rfl⟩
      · exact ⟨rfl, rfl, rfl⟩

theorem WriteFeatureString_offsets (o : Oracle) (w : WS) (feat : Nat) (s : List Nat) :
    ((WriteFeatureString o w feat s).2.1).attr_section_offset_ = w.attr_section_offset_ ∧
    ((WriteFeatureString o w feat s).2.1).attr_section_size_ = w.attr_section_size_ ∧
    ((WriteFeatureString o w feat s).2.1).data_section_offset_ = w.data_section_offset_ := by
  have hBo := WriteFeatureBegin_offsets o w
  rw [WriteFeatureString]
  split
  · rename_i ign w1 o1 heq1
    rw [heq1] at hBo
    simp only at hBo
    exact hBo
  · rename_i ign w1 o1 heq1
    rw [heq1] at hBo
    simp only at hBo
    exact hBo
  · rename_i start w1 o1 heq1
    obtain ⟨hstart, hw1, hlt⟩ := WriteFeatureBegin_eq_ok heq1
    dsimp only
    split <;> rename_i w2 o2 heq2
    · rw [Write_eq_false heq2, hw1]
      exact ⟨rfl, rfl, rfl⟩
    · split <;> rename_i w3 o3 heq3
      · rw [Write_eq_false heq3, Write_eq_true heq2, hw1]
        exact ⟨rfl, rfl, rfl⟩
      · have hEo := WriteFeatureEnd_offsets o3 w3 feat start
        split <;> rename_i w4 o4 heq4 <;>
          (rw [heq4] at hEo
           simp only at hEo
           rw [Write_eq_true heq3, Write_eq_true heq2, hw1] at hEo
           simp only at hEo
           exact hEo)

/-! Claim C6. -/

/-- C6: section contiguity.  A successful WriteAttrSection establishes
data_section_offset_ = attr_section_offset_ + attr_section_size_; a successful
WriteFeatureHeader places the n * sizeof(SectionDesc) zeroed descriptor table
exactly at offset data_section_offset_ + data_section_size_; and the record-
and feature-writing operations never modify the three section-offset fields,
so the contiguity established by WriteAttrSection persists across every
successful sequence of calls. -/
theorem section_contiguity (o oh or os : Oracle) (w v u x : WS)
    (attrs : List EventAttrWithId) (n feat : Nat) (r : Record) (s : List Nat) :
    ((WriteAttrSection o w attrs).1 = true →
      ((WriteAttrSection o w attrs).2.1).data_section_offset_ =
        ((WriteAttrSection o w attrs).2.1).attr_section_offset_ +
          ((WriteAttrSection o w attrs).2.1).attr_section_size_) ∧
    ((WriteFeatureHeader oh v n).1 = true →
      (((WriteFeatureHeader oh v n).2.1).file.drop
          (v.data_section_offset_ + v.data_section_size_)).take (n * SECTION_DESC_SIZE) =
        List.replicate (n * SECTION_DESC_SIZE) 0) ∧
    ((WriteRecord or u r).2.1).attr_section_offset_ = u.attr_section_offset_ ∧
    ((WriteRecord or u r).2.1).attr_section_size_ = u.attr_section_size_ ∧
    ((WriteRecord or u r).2.1).data_section_offset_ = u.data_section_offset_ ∧
    ((WriteFeatureHeader oh v n).2.1).attr_section_offset_ = v.attr_section_offset_ ∧
    ((WriteFeatureHeader oh v n).2.1).attr_section_size_ = v.attr_section_size_ ∧
    ((WriteFeatureHeader oh v n).2.1).data_section_offset_ = v.data_section_offset_ ∧
    ((WriteFeatureString os x feat s).2.1).attr_section_offset_ = x.attr_section_offset_ ∧
    ((WriteFeatureString os x feat s).2.1).attr_section_size_ = x.attr_section_size_ ∧
    ((WriteFeatureString os x feat s).2.1).data_section_offset_ = x.data_section_offset_ := by
  obtain ⟨p1, p2, p3⟩ := WriteRecord_offsets or u r
  obtain ⟨q1, q2, q3⟩ := WriteFeatureHeader_offsets oh v n
  obtain ⟨t1, t2, t3⟩ := WriteFeatureString_offsets os x feat s
  refine ⟨?_, ?_, p1, p2, p3, q1, q2, q3, t1, t2, t3⟩
  · intro h
    cases attrs with
    | nil => simp [WriteAttrSection] at h
    | cons a0 rest =>
      rw [WriteAttrSection.eq_def] at h ⊢
      dsimp only at h ⊢
      split at h
      · simp at h
      · rename_i wA oA heqA
        have hA := fseekSet_eq_true heqA
        split at h
        · simp at h
        · rename_i idOff oB heqB
          split at h
          · simp at h
          · rename_i wC oC heqC
            split at h
            · simp at h
            · rename_i attrOff oD heqD
              split at h
              · simp at h
              · rename_i wE oE heqE
                split at h
                · simp at h
                · rename_i dataOff oF heqF
                  dsimp only
                  have hattr : attrOff = wC.pos := by
                    have hv := ftello_val oC wC
                    rw [heqD] at hv
                    simp only at hv
                    exact hv
                  have hdata : dataOff = wE.pos := by
                    have hv := ftello_val oE wE
                    rw [heqF] at hv
                    simp only at hv
                    exact hv
                  obtain ⟨e1, e2, e3, e4, e5⟩ := writeFileAttrs_fields heqE
                  omega
  · intro h
    rw [WriteFeatureHeader] at h ⊢
    dsimp only at h ⊢
    split at h <;> rename_i wA oA heqA
    · simp at h
    · have hA := fseekSet_eq_true heqA
      rcases Write_cases oA wA (List.replicate (n * SECTION_DESC_SIZE) 0) with
        ⟨oB, hB | hB⟩ <;> rw [hB] at h ⊢
      · simp at h
      · dsimp only
        rw [hA]
        dsimp only
        have := writeAt_region v.file (v.data_section_offset_ + v.data_section_size_)
          (List.replicate (n * SECTION_DESC_SIZE) 0)
        rw [List.length_replicate] at this
        exact this

/-- Instance of section_contiguity: a successful attribute-section write for
one attribute with one id, and a successful WriteFeatureHeader(1) on wFT. -/
theorem section_contiguity_witness :
    ((WriteAttrSection [] w0 [⟨attr0, [5]⟩]).2.1).data_section_offset_ =
      ((WriteAttrSection [] w0 [⟨attr0, [5]⟩]).2.1).attr_section_offset_ +
        ((WriteAttrSection [] w0 [⟨attr0, [5]⟩]).2.1).attr_section_size_ ∧
    (((WriteFeatureHeader [] wFT 1).2.1).file.drop
        (wFT.data_section_offset_ + wFT.data_section_size_)).take (1 * SECTION_DESC_SIZE) =
      List.replicate (1 * SECTION_DESC_SIZE) 0 :=
  ⟨(section_contiguity [] [] [] [] w0 wFT w0 w0 [⟨attr0, [5]⟩] 1 0 r0 []).1 (by decide),
   (section_contiguity [] [] [] [] w0 wFT w0 w0 [⟨attr0, [5]⟩] 1 0 r0 []).2.1 (by decide)⟩

/-! Split-loop specification lemmas. -/

theorem WriteData_nil (w : WS) (d : List Nat) :
    WriteData [] w d = (true, { w with
      file := writeAt w.file w.pos d,
      pos := w.pos + d.length,
      data_section_size_ := w.data_section_size_ + d.length }, []) := rfl

theorem headerBytes_length (t sz : Nat) : (headerBytes t sz).length = RECORD_HEADER_SIZE := rfl

theorem splitLoop_size (left : Nat) : ∀ (w : WS) (bin : List Nat) (p : Nat),
    p + left = bin.length →
    (splitLoop [] w bin p left).1 = true ∧
    (splitLoop [] w bin p left).2.2 = [] ∧
    ((splitLoop [] w bin p left).2.1).data_section_size_ =
      w.data_section_size_ + left + RECORD_HEADER_SIZE * ((left + 65526) / 65527) := by
  induction left using Nat.strong_induction_on with
  | _ left ih =>
    intro w bin p hp
    rw [splitLoop]
    split
    · rename_i hl
      dsimp only
      rw [WriteData_nil]
      dsimp only
      rw [WriteData_nil]
      dsimp only
      have hlen : ((bin.drop p).take (min (RECORD_SIZE_LIMIT - RECORD_HEADER_SIZE) left)).length
          = min (RECORD_SIZE_LIMIT - RECORD_HEADER_SIZE) left := by
        simp only [List.length_take, List.length_drop]
        omega
      have hdec : left - min (RECORD_SIZE_LIMIT - RECORD_HEADER_SIZE) left < left := by
        simp only [RECORD_SIZE_LIMIT, RECORD_HEADER_SIZE]
        omega
      obtain ⟨i1, i2, i3⟩ := ih _ hdec _ bin
        (p + min (RECORD_SIZE_LIMIT - RECORD_HEADER_SIZE) left) (by omega)
      refine ⟨i1, i2, ?_⟩
      dsimp only at i3 ⊢
      simp only [RECORD_SIZE_LIMIT, RECORD_HEADER_SIZE] at hlen
      simp only [headerBytes_length, RECORD_SIZE_LIMIT, RECORD_HEADER_SIZE] at i3 ⊢
      omega
    · rename_i hl
      refine ⟨rfl, rfl, ?_⟩
      simp only [RECORD_HEADER_SIZE]
      omega

theorem splitChunks_flatten (left : Nat) : ∀ (bin : List Nat) (p : Nat),
    p + left = bin.length → (splitChunks bin p left).flatten = bin.drop p := by
  induction left using Nat.strong_induction_on with
  | _ left ih =>
    intro bin p hp
    rw [splitChunks]
    split
    · rename_i hl
      dsimp only
      simp only [List.flatten_cons]
      have hdec : left - min (RECORD_SIZE_LIMIT - RECORD_HEADER_SIZE) left < left := by
        simp only [RECORD_SIZE_LIMIT, RECORD_HEADER_SIZE]
        omega
      rw [ih _ hdec bin (p + min (RECORD_SIZE_LIMIT - RECORD_HEADER_SIZE) left) (by omega)]
      have hd : bin.drop (p + min (RECORD_SIZE_LIMIT - RECORD_HEADER_SIZE) left) =
          (bin.drop p).drop (min (RECORD_SIZE_LIMIT - RECORD_HEADER_SIZE) left) := by
        rw [List.drop_drop]
      rw [hd, List.take_append_drop]
    · rename_i hl
      have hpe : p = bin.length := by omega
      simp [hpe]

theorem splitChunks_bound (left : Nat) : ∀ (bin : List Nat) (p : Nat),
    ∀ c ∈ splitChunks bin p left, c.length + RECORD_HEADER_SIZE ≤ RECORD_SIZE_LIMIT := by
  induction left using Nat.strong_induction_on with
  | _ left ih =>
    intro bin p c hc
    rw [splitChunks] at hc
    split at hc
    · rename_i hl
      dsimp only at hc
      rcases List.mem_cons.mp hc with rfl | hmem
      · simp only [List.length_take, List.length_drop, RECORD_SIZE_LIMIT, RECORD_HEADER_SIZE]
        omega
      · have hdec : left - min (RECORD_SIZE_LIMIT - RECORD_HEADER_SIZE) left < left := by
          simp only [RECORD_SIZE_LIMIT, RECORD_HEADER_SIZE]
          omega
        exact ih _ hdec bin _ c hmem
    · simp at hc

theorem splitChunks_count (left : Nat) : ∀ (bin : List Nat) (p : Nat),
    (splitChunks bin p left).length = (left + 65526) / 65527 := by
  induction left using Nat.strong_induction_on with
  | _ left ih =>
    intro bin p
    rw [splitChunks]
    split
    · rename_i hl
      dsimp only
      simp only [List.length_cons]
      have hdec : left - min (RECORD_SIZE_LIMIT - RECORD_HEADER_SIZE) left < left := by
        simp only [RECORD_SIZE_LIMIT, RECORD_HEADER_SIZE]
        omega
      rw [ih _ hdec bin (p + min (RECORD_SIZE_LIMIT - RECORD_HEADER_SIZE) left)]
      simp only [RECORD_SIZE_LIMIT, RECORD_HEADER_SIZE]
      omega
    · rename_i hl
      simp only [List.length_nil]
      omega

theorem splitLoop_file (left : Nat) : ∀ (w : WS) (bin : List Nat) (p : Nat),
    w.pos = w.file.length → p + left = bin.length →
    ((splitLoop [] w bin p left).2.1).file = w.file ++
      ((splitChunks bin p left).map
        (fun c => encodeRec (SIMPLE_PERF_RECORD_SPLIT, c))).flatten ∧
    ((splitLoop [] w bin p left).2.1).pos = ((splitLoop [] w bin p left).2.1).file.length := by
  induction left using Nat.strong_induction_on with
  | _ left ih =>
    intro w bin p hpos hp
    rw [splitLoop, splitChunks]
    by_cases hl : 0 < left
    · simp only [dif_pos hl]
      rw [WriteData_nil]
      dsimp only
      rw [WriteData_nil]
      dsimp only
      rw [hpos, writeAt_eof]
      have e2 : w.file.length + (headerBytes SIMPLE_PERF_RECORD_SPLIT
          (min (RECORD_SIZE_LIMIT - RECORD_HEADER_SIZE) left + RECORD_HEADER_SIZE)).length =
          (w.file ++ headerBytes SIMPLE_PERF_RECORD_SPLIT
            (min (RECORD_SIZE_LIMIT - RECORD_HEADER_SIZE) left + RECORD_HEADER_SIZE)).length := by
        rw [List.length_append]
      rw [e2, writeAt_eof]
      have hlen : ((bin.drop p).take (min (RECORD_SIZE_LIMIT - RECORD_HEADER_SIZE) left)).length
          = min (RECORD_SIZE_LIMIT - RECORD_HEADER_SIZE) left := by
        simp only [List.length_take, List.length_drop]
        omega
      have hdec : left - min (RECORD_SIZE_LIMIT - RECORD_HEADER_SIZE) left < left := by
        simp only [RECORD_SIZE_LIMIT, RECORD_HEADER_SIZE]
        omega
      obtain ⟨i1, i2⟩ := ih _ hdec
        { w with
          file := (w.file ++ headerBytes SIMPLE_PERF_RECORD_SPLIT
              (min (RECORD_SIZE_LIMIT - RECORD_HEADER_SIZE) left + RECORD_HEADER_SIZE)) ++
              (bin.drop p).take (min (RECORD_SIZE_LIMIT - RECORD_HEADER_SIZE) left),
          pos := (w.file ++ headerBytes SIMPLE_PERF_RECORD_SPLIT
              (min (RECORD_SIZE_LIMIT - RECORD_HEADER_SIZE) left + RECORD_HEADER_SIZE)).length +
              ((bin.drop p).take (min (RECORD_SIZE_LIMIT - RECORD_HEADER_SIZE) left)).length,
          data_section_size_ := w.data_section_size_ + (headerBytes SIMPLE_PERF_RECORD_SPLIT
              (min (RECORD_SIZE_LIMIT - RECORD_HEADER_SIZE) left + RECORD_HEADER_SIZE)).length +
              ((bin.drop p).take (min (RECORD_SIZE_LIMIT - RECORD_HEADER_SIZE) left)).length }
        bin (p + min (RECORD_SIZE_LIMIT - RECORD_HEADER_SIZE) left)
        (by simp
            try omega) (by omega)
      simp only at i1 i2
      constructor
      · rw [i1]
        simp [encodeRec, hlen, headerBytes_length]
      · exact i2
    · simp only [dif_neg hl]
      exact ⟨by simp, hpos⟩

/-! Claim C10. -/

/-- C10: data-section size accounting of WriteRecord on the all-success path.
A record within the size limit advances data_section_size_ by exactly its
size; an oversized record advances it by its size plus one header per SPLIT
chunk plus the header-only SPLIT_END terminator, i.e. by
S + (ceil(S / (65535 - header_size)) + 1) * header_size, not by the logical
record size S alone. -/
theorem writeRecord_size_accounting (w : WS) (r : Record)
    (htype : RECORD_SIZE_LIMIT < r.size → SIMPLE_PERF_RECORD_TYPE_START < r.type) :
    (WriteRecord [] w r).1 = WRes.ok ∧
    ((WriteRecord [] w r).2.1).data_section_size_ =
      w.data_section_size_ +
        (if r.size ≤ RECORD_SIZE_LIMIT then r.size
         else r.size + ((r.size + 65526) / 65527 + 1) * RECORD_HEADER_SIZE) := by
  rw [WriteRecord]
  by_cases hle : r.size ≤ RECORD_SIZE_LIMIT
  · simp only [if_pos hle]
    rw [WriteData_nil]
    constructor <;> trivial
  · simp only [if_neg hle]
    have hty := htype (by omega)
    rw [if_neg (by omega)]
    obtain ⟨s1, s2, s3⟩ := splitLoop_size r.size w r.binary 0 (by simp [Record.size])
    rcases hS : splitLoop [] w r.binary 0 r.size with ⟨bS, wS, oS⟩
    rw [hS] at s1 s2 s3
    simp only at s1 s2 s3
    subst s1
    subst s2
    dsimp only
    rw [WriteData_nil]
    dsimp only
    refine ⟨rfl, ?_⟩
    simp only [headerBytes_length, RECORD_HEADER_SIZE] at s3 ⊢
    omega

/-- Instance of writeRecord_size_accounting at the oversized record rBig
(65544 bytes, two SPLIT chunks plus the SPLIT_END terminator). -/
theorem writeRecord_size_accounting_witness :
    (WriteRecord [] w0 rBig).1 = WRes.ok ∧
    ((WriteRecord [] w0 rBig).2.1).data_section_size_ =
      w0.data_section_size_ +
        (if rBig.size ≤ RECORD_SIZE_LIMIT then rBig.size
         else rBig.size + ((rBig.size + 65526) / 65527 + 1) * RECORD_HEADER_SIZE) :=
  writeRecord_size_accounting w0 rBig (by intro h; decide)

/-! Claim C3. -/

/-- C3: split encoding and rejoin.  For an oversized record of a
simpleperf-own type written at end of file with every write succeeding: each
emitted SPLIT chunk record stays within the 65535-byte limit (its payload
carries at most 65535 - header_size bytes taken in order from the front of
the binary), the concatenation of all chunk payloads reconstructs exactly the
original bytes, the emission is the chunk records followed by exactly one
header-only SPLIT_END terminator, and WriteRecord appends precisely the wire
encoding of that emission to the file. -/
theorem writeRecord_split_rejoin (w : WS) (r : Record)
    (hpos : w.pos = w.file.length) (hsize : RECORD_SIZE_LIMIT < r.size)
    (htype : SIMPLE_PERF_RECORD_TYPE_START < r.type) :
    (∀ c ∈ splitChunks r.binary 0 r.size,
      c.length + RECORD_HEADER_SIZE ≤ RECORD_SIZE_LIMIT) ∧
    (splitChunks r.binary 0 r.size).flatten = r.binary ∧
    splitEmission r.binary =
      (splitChunks r.binary 0 r.size).map (fun c => (SIMPLE_PERF_RECORD_SPLIT, c)) ++
        [(SIMPLE_PERF_RECORD_SPLIT_END, [])] ∧
    (WriteRecord [] w r).1 = WRes.ok ∧
    ((WriteRecord [] w r).2.1).file =
      w.file ++ ((splitEmission r.binary).map encodeRec).flatten := by
  have hlen0 : (0 : Nat) + r.size = r.binary.length := by simp [Record.size]
  refine ⟨splitChunks_bound r.size r.binary 0, ?_, rfl, ?_, ?_⟩
  · have := splitChunks_flatten r.size r.binary 0 hlen0
    simpa using this
  · rw [WriteRecord, if_neg (by omega), if_neg (by omega)]
    obtain ⟨s1, s2, s3⟩ := splitLoop_size r.size w r.binary 0 hlen0
    rcases hS : splitLoop [] w r.binary 0 r.size with ⟨bS, wS, oS⟩
    rw [hS] at s1 s2
    simp only at s1 s2
    subst s1
    subst s2
    dsimp only
    rw [WriteData_nil]
  · rw [WriteRecord, if_neg (by omega), if_neg (by omega)]
    obtain ⟨s1, s2, s3⟩ := splitLoop_size r.size w r.binary 0 hlen0
    obtain ⟨f1, f2⟩ := splitLoop_file r.size w r.binary 0 hpos hlen0
    rcases hS : splitLoop [] w r.binary 0 r.size with ⟨bS, wS, oS⟩
    rw [hS] at s1 s2 f1 f2
    simp only at s1 s2 f1 f2
    subst s1
    subst s2
    dsimp only
    rw [WriteData_nil]
    dsimp only
    rw [f2, writeAt_eof, f1]
    simp only [splitEmission, List.map_append, List.map_map, List.flatten_append,
      List.append_assoc]
    simp only [show r.binary.length = r.size from rfl]
    rfl

/-- Size of the concrete oversized record. -/
theorem rBig_size : rBig.size = 65544 := by
  show (List.replicate 65544 7).length = 65544
  rw [List.length_replicate]

/-- Instance of writeRecord_split_rejoin at the oversized record rBig on a
fresh writer. -/
theorem writeRecord_split_rejoin_witness :
    (∀ c ∈ splitChunks rBig.binary 0 rBig.size,
      c.length + RECORD_HEADER_SIZE ≤ RECORD_SIZE_LIMIT) ∧
    (splitChunks rBig.binary 0 rBig.size).flatten = rBig.binary ∧
    splitEmission rBig.binary =
      (splitChunks rBig.binary 0 rBig.size).map (fun c => (SIMPLE_PERF_RECORD_SPLIT, c)) ++
        [(SIMPLE_PERF_RECORD_SPLIT_END, [])] ∧
    (WriteRecord [] w0 rBig).1 = WRes.ok ∧
    ((WriteRecord [] w0 rBig).2.1).file =
      w0.file ++ ((splitEmission rBig.binary).map encodeRec).flatten :=
  writeRecord_split_rejoin w0 rBig (by decide) (by rw [rBig_size]; decide) (by decide)

/-! Lemmas about the merge-cache contract (popMin). -/

theorem popMin_eq_none : ∀ {c : List Rec}, popMin c = none ↔ c = []
  | [] => by simp [popMin]
  | r :: rs => by
    rw [popMin]
    cases h : popMin rs with
    | none => simp
    | some p =>
      obtain ⟨m, rest⟩ := p
      simp only [List.cons_ne_nil, iff_false]
      split <;> simp

theorem popMin_perm {c : List Rec} {r : Rec} {c2 : List Rec}
    (h : popMin c = some (r, c2)) : c.Perm (r :: c2) := by
  induction c generalizing r c2 with
  | nil => simp [popMin] at h
  | cons x xs ih =>
    rw [popMin] at h
    cases hx : popMin xs with
    | none =>
      have hnil : xs = [] := popMin_eq_none.mp hx
      subst hnil
      simp only [popMin] at h
      simp only [Option.some.injEq, Prod.mk.injEq] at h
      obtain ⟨rfl, rfl⟩ := h
      exact List.Perm.refl _
    | some p =>
      obtain ⟨m, rest⟩ := p
      rw [hx] at h
      by_cases hle : x.time ≤ m.time
      · simp only [if_pos hle, Option.some.injEq, Prod.mk.injEq] at h
        obtain ⟨rfl, rfl⟩ := h
        exact List.Perm.refl _
      · simp only [if_neg hle, Option.some.injEq, Prod.mk.injEq] at h
        obtain ⟨rfl, rfl⟩ := h
        have hp := ih hx
        exact List.Perm.trans (hp.cons x) (List.Perm.swap m x rest)

theorem popMin_le {c : List Rec} {r : Rec} {c2 : List Rec}
    (h : popMin c = some (r, c2)) : ∀ x ∈ c, r.time ≤ x.time := by
  induction c generalizing r c2 with
  | nil => simp [popMin] at h
  | cons a as ih =>
    rw [popMin] at h
    cases hx : popMin as with
    | none =>
      have hnil : as = [] := popMin_eq_none.mp hx
      subst hnil
      simp only [popMin, Option.some.injEq, Prod.mk.injEq] at h
      obtain ⟨rfl, rfl⟩ := h
      simp
    | some p =>
      obtain ⟨m, rest⟩ := p
      rw [hx] at h
      by_cases hle : a.time ≤ m.time
      · simp only [if_pos hle, Option.some.injEq, Prod.mk.injEq] at h
        obtain ⟨rfl, rfl⟩ := h
        intro x hxm
        simp only [List.mem_cons] at hxm
        rcases hxm with rfl | hmem
        · exact le_refl _
        · exact le_trans hle (ih hx x hmem)
      · simp only [if_neg hle, Option.some.injEq, Prod.mk.injEq] at h
        obtain ⟨rfl, rfl⟩ := h
        intro x hxm
        simp only [List.mem_cons] at hxm
        rcases hxm with rfl | hmem
        · omega
        · exact ih hx x hmem

theorem popMin_length {c : List Rec} {r : Rec} {c2 : List Rec}
    (h : popMin c = some (r, c2)) : c2.length + 1 = c.length :=
  (popMin_perm h).length_eq.symm

theorem popMin_mem {c : List Rec} {r : Rec} {c2 : List Rec}
    (h : popMin c = some (r, c2)) : r ∈ c :=
  (popMin_perm h).mem_iff.mpr (List.mem_cons_self r c2)

/-! Lemmas about the cpu map (findCpu, updateCpu, routeRec). -/

theorem findCpu_mem {m : List CpuData} {c : Nat} {l : CpuData}
    (h : findCpu m c = some l) : l ∈ m ∧ l.cpu = c := by
  refine ⟨List.mem_of_find?_eq_some h, ?_⟩
  have := List.find?_some h
  simpa using this

theorem findCpu_of_mem_nodup {m : List CpuData} {l : CpuData}
    (hnd : (m.map (fun x => x.cpu)).Nodup) (hl : l ∈ m) : findCpu m l.cpu = some l := by
  induction m with
  | nil => simp at hl
  | cons a as ih =>
    simp only [List.map_cons, List.nodup_cons] at hnd
    rcases List.mem_cons.mp hl with rfl | hmem
    · simp [findCpu, List.find?]
    · rw [findCpu, List.find?]
      have hne : a.cpu ≠ l.cpu := by
        intro he
        exact hnd.1 (he ▸ List.mem_map_of_mem (fun x => x.cpu) hmem)
      have hb : (a.cpu == l.cpu) = false := by simp [hne]
      rw [hb]
      exact ih hnd.2 hmem

theorem cpu_inj_of_nodup {m : List CpuData} {l l2 : CpuData}
    (hnd : (m.map (fun x => x.cpu)).Nodup) (h1 : l ∈ m) (h2 : l2 ∈ m)
    (he : l.cpu = l2.cpu) : l = l2 := by
  have := List.inj_on_of_nodup_map hnd h1 h2 he
  exact this

theorem mem_updateCpu {m : List CpuData} {c : Nat} {q : List Rec} {ds : Nat} {l2 : CpuData}
    (h : l2 ∈ updateCpu m c q ds) : l2 = ⟨c, q, ds⟩ ∨ l2 ∈ m := by
  induction m with
  | nil => simp [updateCpu] at h
  | cons a as ih =>
    rw [updateCpu] at h
    split at h
    · rcases List.mem_cons.mp h with rfl | hmem
      · exact Or.inl rfl
      · exact Or.inr (List.mem_cons_of_mem a hmem)
    · rcases List.mem_cons.mp h with rfl | hmem
      · exact Or.inr (List.mem_cons_self _ _)
      · rcases ih hmem with h1 | h1
        · exact Or.inl h1
        · exact Or.inr (List.mem_cons_of_mem a h1)

theorem mem_updateCpu_self {m : List CpuData} {c : Nat} {l : CpuData} (q : List Rec) (ds : Nat)
    (h : findCpu m c = some l) : (⟨c, q, ds⟩ : CpuData) ∈ updateCpu m c q ds := by
  induction m with
  | nil => simp [findCpu] at h
  | cons a as ih =>
    rw [updateCpu]
    split
    · exact List.mem_cons_self _ _
    · rename_i hne
      rw [findCpu, List.find?] at h
      have hb : (a.cpu == c) = false := by simp [hne]
      rw [hb] at h
      exact List.mem_cons_of_mem a (ih h)

theorem mem_updateCpu_other {m : List CpuData} {c : Nat} {q : List Rec} {ds : Nat} {l2 : CpuData}
    (hl : l2 ∈ m) (hne : l2.cpu ≠ c) : l2 ∈ updateCpu m c q ds := by
  induction m with
  | nil => simp at hl
  | cons a as ih =>
    rw [updateCpu]
    rcases List.mem_cons.mp hl with rfl | hmem
    · rw [if_neg hne]
      exact List.mem_cons_self _ _
    · split
      · exact List.mem_cons_of_mem _ hmem
      · exact List.mem_cons_of_mem a (ih hmem)

theorem map_cpu_updateCpu (m : List CpuData) (c : Nat) (q : List Rec) (ds : Nat) :
    (updateCpu m c q ds).map (fun l => l.cpu) = m.map (fun l => l.cpu) := by
  induction m with
  | nil => rfl
  | cons a as ih =>
    rw [updateCpu]
    split
    · rename_i he
      simp [he]
    · simp [ih]

theorem queueSizes_updateCpu {m : List CpuData} {c : Nat} {l : CpuData} (q : List Rec) (ds : Nat)
    (h : findCpu m c = some l) :
    queueSizes (updateCpu m c q ds) + l.queue.length = queueSizes m + q.length := by
  induction m with
  | nil => simp [findCpu] at h
  | cons a as ih =>
    rw [findCpu, List.find?] at h
    by_cases hc : a.cpu = c
    · have hb : (a.cpu == c) = true := by simp [hc]
      rw [hb] at h
      obtain rfl := Option.some.inj h
      have hupd : updateCpu (a :: as) c q ds = ⟨c, q, ds⟩ :: as := by
        rw [updateCpu, if_pos hc]
      rw [hupd]
      simp [queueSizes]
      omega
    · have hb : (a.cpu == c) = false := by simp [hc]
      rw [hb] at h
      have hupd : updateCpu (a :: as) c q ds = a :: updateCpu as c q ds := by
        rw [updateCpu, if_neg hc]
      rw [hupd]
      have := ih h
      simp [queueSizes] at this ⊢
      omega

theorem joinQ_updateCpu {m : List CpuData} {c : Nat} {l : CpuData} (q : List Rec) (ds : Nat)
    (h : findCpu m c = some l) :
    (joinQ (updateCpu m c q ds) : Multiset Rec) + (l.queue : Multiset Rec) =
      (joinQ m : Multiset Rec) + (q : Multiset Rec) := by
  induction m with
  | nil => simp [findCpu] at h
  | cons a as ih =>
    rw [findCpu, List.find?] at h
    by_cases hc : a.cpu = c
    · have hb : (a.cpu == c) = true := by simp [hc]
      rw [hb] at h
      obtain rfl := Option.some.inj h
      have hupd : updateCpu (a :: as) c q ds = ⟨c, q, ds⟩ :: as := by
        rw [updateCpu, if_pos hc]
      rw [hupd]
      simp only [joinQ, List.map_cons, List.flatten_cons, ← Multiset.coe_add]
      abel
    · have hb : (a.cpu == c) = false := by simp [hc]
      rw [hb] at h
      have hupd : updateCpu (a :: as) c q ds = a :: updateCpu as c q ds := by
        rw [updateCpu, if_neg hc]
      rw [hupd]
      have hih := ih h
      calc (joinQ (a :: updateCpu as c q ds) : Multiset Rec) + (l.queue : Multiset Rec)
          = (a.queue : Multiset Rec) +
            ((joinQ (updateCpu as c q ds) : Multiset Rec) + (l.queue : Multiset Rec)) := by
            simp only [joinQ, List.map_cons, List.flatten_cons, ← Multiset.coe_add]
            abel
        _ = (a.queue : Multiset Rec) + ((joinQ as : Multiset Rec) + (q : Multiset Rec)) := by
            rw [hih]
        _ = (joinQ (a :: as) : Multiset Rec) + (q : Multiset Rec) := by
            simp only [joinQ, List.map_cons, List.flatten_cons, ← Multiset.coe_add]
            abel

theorem joinQ_nil_of_empty {m : List CpuData} (h : ∀ l ∈ m, l.queue = []) : joinQ m = [] := by
  induction m with
  | nil => rfl
  | cons a as ih =>
    have hrest := ih (fun l hl => h l (List.mem_cons_of_mem a hl))
    simp only [joinQ, List.map_cons, List.flatten_cons] at hrest ⊢
    rw [h a (List.mem_cons_self _ _), hrest]
    rfl

/-! Partition lemmas: the cpu map built by phase 1. -/

theorem sizeSum_cons (x : Rec) (xs : List Rec) : sizeSum (x :: xs) = x.size + sizeSum xs := by
  simp [sizeSum]

theorem findCpu_routeRec_other {m : List CpuData} {r : Rec} {c : Nat} (hne : c ≠ r.cpu) :
    findCpu (routeRec m r) c = findCpu m c := by
  induction m with
  | nil =>
    rw [routeRec]
    have hb : (r.cpu == c) = false := by simp [Ne.symm hne]
    simp [findCpu, List.find?, hb]
  | cons a as ih =>
    rw [routeRec]
    split
    · rename_i hcpu
      rw [findCpu, List.find?, findCpu, List.find?]
      by_cases hac : a.cpu = c
      · exact absurd (hac ▸ hcpu.symm) (Ne.symm hne)
      · have hb : (a.cpu == c) = false := by simp [hac]
        simp only [hb]
    · rw [findCpu, List.find?, findCpu, List.find?]
      by_cases hac : a.cpu = c
      · have hb : (a.cpu == c) = true := by simp [hac]
        simp only [hb]
      · have hb : (a.cpu == c) = false := by simp [hac]
        simp only [hb]
        exact ih

theorem findCpu_routeRec_self_none {m : List CpuData} {r : Rec}
    (h : findCpu m r.cpu = none) :
    findCpu (routeRec m r) r.cpu = some ⟨r.cpu, [r], r.size⟩ := by
  induction m with
  | nil => simp [routeRec, findCpu, List.find?]
  | cons a as ih =>
    rw [findCpu, List.find?] at h
    rw [routeRec]
    split
    · rename_i hcpu
      have hb : (a.cpu == r.cpu) = true := by simp [hcpu]
      rw [hb] at h
      simp at h
    · rename_i hcpu
      have hb : (a.cpu == r.cpu) = false := by simp [hcpu]
      rw [hb] at h
      rw [findCpu, List.find?, hb]
      exact ih h

theorem findCpu_routeRec_self_some {m : List CpuData} {r : Rec} {l : CpuData}
    (h : findCpu m r.cpu = some l) :
    findCpu (routeRec m r) r.cpu =
      some ⟨l.cpu, l.queue ++ [r], l.data_size + r.size⟩ := by
  induction m with
  | nil => simp [findCpu] at h
  | cons a as ih =>
    rw [findCpu, List.find?] at h
    rw [routeRec]
    split
    · rename_i hcpu
      have hb : (a.cpu == r.cpu) = true := by simp [hcpu]
      rw [hb] at h
      obtain rfl := Option.some.inj h
      rw [findCpu, List.find?]
      simp only [hb]
    · rename_i hcpu
      have hb : (a.cpu == r.cpu) = false := by simp [hcpu]
      rw [hb] at h
      rw [findCpu, List.find?, hb]
      exact ih h

theorem findCpu_foldl (rs : List Rec) : ∀ (m : List CpuData) (c : Nat),
    findCpu (rs.foldl routeRec m) c =
      match findCpu m c, rs.filter (fun x => x.cpu == c) with
      | none, [] => none
      | none, f => some ⟨c, f, sizeSum f⟩
      | some l, f => some ⟨l.cpu, l.queue ++ f, l.data_size + sizeSum f⟩ := by
  induction rs with
  | nil =>
    intro m c
    simp only [List.foldl_nil, List.filter_nil]
    cases hf : findCpu m c with
    | none => rfl
    | some l =>
      obtain ⟨hl, hc⟩ := findCpu_mem hf
      cases l
      simp [sizeSum]
  | cons x rest ih =>
    intro m c
    simp only [List.foldl_cons]
    rw [ih (routeRec m x) c]
    by_cases hc : x.cpu = c
    · subst hc
      have hfil : (x :: rest).filter (fun y => y.cpu == x.cpu) =
          x :: rest.filter (fun y => y.cpu == x.cpu) := by
        simp [List.filter_cons]
      rw [hfil]
      cases hf : findCpu m x.cpu with
      | none =>
        rw [findCpu_routeRec_self_none hf]
        cases hr : rest.filter (fun y => y.cpu == x.cpu) with
        | nil => simp [sizeSum]
        | cons z zs =>
          simp only [sizeSum_cons]
          simp [sizeSum]
      | some l =>
        rw [findCpu_routeRec_self_some hf]
        simp only [sizeSum_cons, List.append_assoc, List.singleton_append]
        cases hr : rest.filter (fun y => y.cpu == x.cpu) <;> simp [sizeSum] <;> omega
    · have hfil : (x :: rest).filter (fun y => y.cpu == c) =
          rest.filter (fun y => y.cpu == c) := by
        simp [List.filter_cons, hc]
      rw [hfil, findCpu_routeRec_other (Ne.symm hc)]

theorem map_cpu_routeRec (m : List CpuData) (r : Rec) :
    ((routeRec m r).map (fun l => l.cpu) = m.map (fun l => l.cpu)) ∨
    ((routeRec m r).map (fun l => l.cpu) = m.map (fun l => l.cpu) ++ [r.cpu] ∧
      r.cpu ∉ m.map (fun l => l.cpu)) := by
  induction m with
  | nil =>
    right
    simp [routeRec]
  | cons a as ih =>
    rw [routeRec]
    split
    · rename_i hcpu
      left
      simp [hcpu]
    · rename_i hcpu
      rcases ih with h | ⟨h1, h2⟩
      · left
        simp [h]
      · right
        constructor
        · simp [h1]
        · simp only [List.map_cons, List.mem_cons]
          rintro (he | hmem)
          · exact hcpu he.symm
          · exact h2 hmem

theorem nodup_cpu_foldl (rs : List Rec) : ∀ (m : List CpuData),
    (m.map (fun l => l.cpu)).Nodup → ((rs.foldl routeRec m).map (fun l => l.cpu)).Nodup := by
  induction rs with
  | nil => intro m h; simpa using h
  | cons x rest ih =>
    intro m h
    simp only [List.foldl_cons]
    apply ih
    rcases map_cpu_routeRec m x with he | ⟨he, hnm⟩
    · rw [he]; exact h
    · rw [he]
      simp [List.nodup_append, h, hnm]

theorem joinQ_routeRec (m : List CpuData) (r : Rec) :
    (joinQ (routeRec m r) : Multiset Rec) = (joinQ m : Multiset Rec) + {r} := by
  induction m with
  | nil =>
    simp [routeRec, joinQ]
  | cons a as ih =>
    rw [routeRec]
    split
    · simp only [joinQ, List.map_cons, List.flatten_cons, ← Multiset.coe_add,
        Multiset.coe_singleton]
      abel
    · simp only [joinQ, List.map_cons, List.flatten_cons, ← Multiset.coe_add] at ih ⊢
      rw [ih]
      abel

theorem joinQ_foldl (rs : List Rec) : ∀ (m : List CpuData),
    (joinQ (rs.foldl routeRec m) : Multiset Rec) =
      (joinQ m : Multiset Rec) + (rs : Multiset Rec) := by
  induction rs with
  | nil => intro m; simp
  | cons x rest ih =>
    intro m
    simp only [List.foldl_cons]
    rw [ih (routeRec m x), joinQ_routeRec]
    have : ((x :: rest : List Rec) : Multiset Rec) = {x} + (rest : Multiset Rec) := by
      simp [Multiset.singleton_add]
    rw [this]
    abel

theorem phase1_all (src : List Rec) : ∀ (m : List CpuData) (cur dss : Nat),
    (∀ r ∈ src, 0 < r.size) → cur + sizeSum src = dss →
    phase1 [] src cur dss m = (some (src.foldl routeRec m, []), []) := by
  induction src with
  | nil =>
    intro m cur dss _ hsum
    rw [phase1.eq_def]
    rw [if_neg (by simp [sizeSum] at hsum; omega)]
    rfl
  | cons r rest ih =>
    intro m cur dss hpos hsum
    rw [phase1.eq_def]
    rw [if_pos (by
      rw [sizeSum_cons] at hsum
      have := hpos r (List.mem_cons_self _ _)
      omega)]
    simp only [next, ite_self, Bool.not_true, Bool.false_eq_true, if_false]
    rw [List.foldl_cons]
    apply ih
    · exact fun x hx => hpos x (List.mem_cons_of_mem r hx)
    · rw [sizeSum_cons] at hsum
      omega

/-! Seeding lemma: the cache after reading one record per scratch file. -/

theorem queueSizes_cons (a : CpuData) (m : List CpuData) :
    queueSizes (a :: m) = a.queue.length + queueSizes m := by
  simp [queueSizes]

theorem seed_spec : ∀ (m : List CpuData),
    (∀ l ∈ m, CpuWF l) → (∀ l ∈ m, l.queue ≠ []) →
    (m.map (fun l => l.cpu)).Nodup →
    ∃ cache m2,
      seed [] m = (some (cache, m2), []) ∧
      MergeInv cache m2 ∧
      ((cache : Multiset Rec) + (joinQ m2 : Multiset Rec) = (joinQ m : Multiset Rec)) ∧
      cache.length + queueSizes m2 = queueSizes m ∧
      m2.map (fun l => l.cpu) = m.map (fun l => l.cpu) := by
  intro m
  induction m with
  | nil =>
    intro _ _ _
    refine ⟨[], [], rfl, ⟨by simp, by simp, by simp, by simp⟩, by simp [joinQ], ?_, rfl⟩
    simp [queueSizes]
  | cons l ls ih =>
    intro hwf hne hnd
    obtain ⟨r, q, hq⟩ : ∃ r q, l.queue = r :: q := by
      cases hq : l.queue with
      | nil => exact absurd hq (hne l (List.mem_cons_self _ _))
      | cons r q => exact ⟨r, q, rfl⟩
    simp only [List.map_cons, List.nodup_cons] at hnd
    obtain ⟨cache, m2, hseed, hinv, hms, hlen, hmap⟩ :=
      ih (fun x hx => hwf x (List.mem_cons_of_mem _ hx))
        (fun x hx => hne x (List.mem_cons_of_mem _ hx)) hnd.2
    obtain ⟨hsort, hcpuq, hds, hpos⟩ := hwf l (List.mem_cons_self _ _)
    have hrcpu : r.cpu = l.cpu := hcpuq r (by rw [hq]; exact List.mem_cons_self _ _)
    obtain ⟨iwf, ind, icache, iwit⟩ := hinv
    refine ⟨r :: cache, ⟨l.cpu, q, l.data_size - r.size⟩ :: m2, ?_, ⟨?_, ?_, ?_, ?_⟩, ?_, ?_, ?_⟩
    · rw [seed]
      simp only [next, Bool.not_true, Bool.false_eq_true, if_false]
      rw [hq, hseed]
    · intro l2 hl2
      rcases List.mem_cons.mp hl2 with rfl | hmem
      · rw [hq] at hsort hcpuq hds hpos
        refine ⟨(List.pairwise_cons.mp hsort).2, ?_, ?_, ?_⟩
        · intro x hx
          exact hcpuq x (List.mem_cons_of_mem _ hx)
        · rw [hds, sizeSum_cons]
          dsimp only
          omega
        · intro x hx
          exact hpos x (List.mem_cons_of_mem _ hx)
      · exact iwf l2 hmem
    · simp only [List.map_cons, List.nodup_cons]
      rw [hmap]
      exact ⟨hnd.1, hnd.2⟩
    · intro x hx
      rcases List.mem_cons.mp hx with rfl | hmem
      · exact ⟨⟨l.cpu, q, l.data_size - x.size⟩, List.mem_cons_self _ _, hrcpu.symm⟩
      · obtain ⟨l2, hl2, hc2⟩ := icache x hmem
        exact ⟨l2, List.mem_cons_of_mem _ hl2, hc2⟩
    · intro l2 hl2 hne2
      rcases List.mem_cons.mp hl2 with rfl | hmem
      · refine ⟨r, List.mem_cons_self _ _, hrcpu, ?_⟩
        intro y hy
        rw [hq] at hsort
        exact (List.pairwise_cons.mp hsort).1 y hy
      · obtain ⟨x, hx, hcx, hbx⟩ := iwit l2 hmem hne2
        exact ⟨x, List.mem_cons_of_mem _ hx, hcx, hbx⟩
    · simp only [joinQ, List.map_cons, List.flatten_cons, ← Multiset.coe_add] at hms ⊢
      rw [hq]
      rw [← hms]
      have : ((r :: cache : List Rec) : Multiset Rec) = (r ::ₘ (cache : Multiset Rec)) := by
        simp
      rw [this]
      have : ((r :: q : List Rec) : Multiset Rec) = (r ::ₘ (q : Multiset Rec)) := by
        simp
      rw [this]
      simp only [← Multiset.singleton_add]
      abel
    · simp only [List.length_cons, queueSizes_cons] at hlen ⊢
      rw [hq]
      simp only [List.length_cons]
      omega
    · simp only [List.map_cons]
      rw [hmap]

/-! Merge-loop specification: the k-way merge pops records in global time
order and writes back exactly the records it was given. -/

theorem mergeLoop_spec : ∀ (n : Nat) (cache : List Rec) (m : List CpuData) (out : List Rec),
    cache.length + queueSizes m = n →
    MergeInv cache m →
    out.Sorted timeLE →
    (∀ a ∈ out, ∀ b ∈ cache, timeLE a b) →
    (mergeLoop [] cache m out).1 = true ∧
    (mergeLoop [] cache m out).2.2 = [] ∧
    ((mergeLoop [] cache m out).2.1).Sorted timeLE ∧
    ((mergeLoop [] cache m out).2.1 : Multiset Rec) =
      (out : Multiset Rec) + (cache : Multiset Rec) + (joinQ m : Multiset Rec) := by
  intro n
  induction n using Nat.strong_induction_on with
  | _ n ih =>
    intro cache m out hn hinv hsort hbd
    obtain ⟨iwf, ind, icache, iwit⟩ := hinv
    rw [mergeLoop]
    split
    · rename_i heq
      have hcnil : cache = [] := popMin_eq_none.mp heq
      subst hcnil
      have hqnil : ∀ l ∈ m, l.queue = [] := by
        intro l hl
        by_contra hne
        obtain ⟨x, hx, _⟩ := iwit l hl hne
        simp at hx
      refine ⟨rfl, rfl, hsort, ?_⟩
      rw [joinQ_nil_of_empty hqnil]
      simp
    · rename_i r cache2 heq
      simp only [next, Bool.not_true, Bool.false_eq_true, if_false]
      have hrmem : r ∈ cache := popMin_mem heq
      obtain ⟨l0, hl0, hc0⟩ := icache r hrmem
      split
      · rename_i heqf
        rw [findCpu, List.find?_eq_none] at heqf
        exact absurd (by simp [hc0]) (heqf l0 hl0)
      · rename_i l heqf
        obtain ⟨hlm, hlc⟩ := findCpu_mem heqf
        obtain ⟨lsort, lcpuq, lds, lpos⟩ := iwf l hlm
        have hperm := popMin_perm heq
        have hrle := popMin_le heq
        have hlen2 := popMin_length heq
        have hsort2 : (out ++ [r]).Sorted timeLE := by
          show List.Pairwise timeLE (out ++ [r])
          rw [List.pairwise_append]
          refine ⟨hsort, by simp, ?_⟩
          intro a ha b hb
          simp only [List.mem_singleton] at hb
          rw [hb]
          exact hbd a ha r hrmem
        have e1 : (cache : Multiset Rec) = {r} + (cache2 : Multiset Rec) := by
          rw [Multiset.coe_eq_coe.mpr hperm]
          rfl
        split
        · rename_i hds
          split
          · rename_i hqnil
            rw [hqnil] at lds
            simp [sizeSum] at lds
            omega
          · rename_i q0 q hqe
            have hq0mem : q0 ∈ l.queue := by
              rw [hqe]
              exact List.mem_cons_self _ _
            have hq0cpu : q0.cpu = l.cpu := lcpuq q0 hq0mem
            obtain ⟨xw, hxw, hxwc, hxwb⟩ := iwit l hlm (by rw [hqe]; simp)
            have hrq0 : timeLE r q0 := le_trans (hrle xw hxw) (hxwb q0 hq0mem)
            have hqs := queueSizes_updateCpu q (l.data_size - q0.size) heqf
            rw [hqe] at hqs
            simp only [List.length_cons] at hqs
            have hsub : lsort.tail = lsort.tail := rfl
            have ltail : (q0 :: q).Sorted timeLE := by rw [← hqe]; exact lsort
            have ltail2 := List.pairwise_cons.mp ltail
            have hinv2 : MergeInv (cache2 ++ [q0])
                (updateCpu m r.cpu q (l.data_size - q0.size)) := by
              refine ⟨?_, ?_, ?_, ?_⟩
              · intro l2 hl2
                rcases mem_updateCpu hl2 with rfl | hmem
                · refine ⟨ltail2.2, ?_, ?_, ?_⟩
                  · intro x hx
                    dsimp only
                    rw [lcpuq x (by rw [hqe]; exact List.mem_cons_of_mem _ hx)]
                    exact hlc
                  · dsimp only
                    rw [hqe, sizeSum_cons] at lds
                    omega
                  · intro x hx
                    exact lpos x (by rw [hqe]; exact List.mem_cons_of_mem _ hx)
                · exact iwf l2 hmem
              · rw [map_cpu_updateCpu]
                exact ind
              · intro x hx
                rcases List.mem_append.mp hx with hx2 | hx2
                · by_cases hcx : x.cpu = r.cpu
                  · exact ⟨⟨r.cpu, q, l.data_size - q0.size⟩,
                      mem_updateCpu_self _ _ heqf, hcx.symm⟩
                  · have hxc : x ∈ cache := hperm.mem_iff.mpr (List.mem_cons_of_mem _ hx2)
                    obtain ⟨lx, hlx, hlxc⟩ := icache x hxc
                    refine ⟨lx, mem_updateCpu_other hlx ?_, hlxc⟩
                    rw [hlxc]
                    exact hcx
                · simp only [List.mem_singleton] at hx2
                  exact ⟨⟨r.cpu, q, l.data_size - q0.size⟩,
                    mem_updateCpu_self _ _ heqf, by rw [hx2, hq0cpu, hlc]⟩
              · intro l2 hl2 hne2
                rcases mem_updateCpu hl2 with rfl | hmem
                · refine ⟨q0, List.mem_append.mpr (Or.inr (List.mem_singleton.mpr rfl)), ?_, ?_⟩
                  · rw [hq0cpu, hlc]
                  · intro y hy
                    exact ltail2.1 y hy
                · by_cases hc2 : l2.cpu = r.cpu
                  · have hl2l : l2 = l := cpu_inj_of_nodup ind hmem hlm (by rw [hc2, hlc])
                    subst hl2l
                    refine ⟨q0, List.mem_append.mpr (Or.inr (List.mem_singleton.mpr rfl)),
                      by rw [hq0cpu, hlc], ?_⟩
                    intro y hy
                    rw [hqe] at hy
                    rcases List.mem_cons.mp hy with rfl | hy2
                    · exact le_refl _
                    · exact ltail2.1 y hy2
                  · obtain ⟨x, hx, hxc, hxb⟩ := iwit l2 hmem hne2
                    have hxr : x ≠ r := by
                      intro hxr
                      rw [hxr] at hxc
                      exact hc2 hxc.symm
                    have : x ∈ r :: cache2 := hperm.mem_iff.mp hx
                    rcases List.mem_cons.mp this with rfl | hx2
                    · exact absurd rfl hxr
                    · exact ⟨x, List.mem_append.mpr (Or.inl hx2), hxc, hxb⟩
            have hbd2 : ∀ a ∈ out ++ [r], ∀ b ∈ cache2 ++ [q0], timeLE a b := by
              intro a ha b hb
              rcases List.mem_append.mp hb with hb2 | hb2
              · have hbc : b ∈ cache := hperm.mem_iff.mpr (List.mem_cons_of_mem _ hb2)
                rcases List.mem_append.mp ha with ha2 | ha2
                · exact hbd a ha2 b hbc
                · simp only [List.mem_singleton] at ha2
                  rw [ha2]
                  exact hrle b hbc
              · simp only [List.mem_singleton] at hb2
                rw [hb2]
                rcases List.mem_append.mp ha with ha2 | ha2
                · exact le_trans (hbd a ha2 xw hxw) (hxwb q0 hq0mem)
                · simp only [List.mem_singleton] at ha2
                  rw [ha2]
                  exact hrq0
            have hmeas : (cache2 ++ [q0]).length +
                queueSizes (updateCpu m r.cpu q (l.data_size - q0.size)) < n := by
              simp only [List.length_append, List.length_singleton]
              omega
            obtain ⟨c1, c2, c3, c4⟩ := ih _ hmeas (cache2 ++ [q0])
              (updateCpu m r.cpu q (l.data_size - q0.size)) (out ++ [r]) rfl hinv2 hsort2 hbd2
            refine ⟨c1, c2, c3, ?_⟩
            rw [c4]
            have e2 := joinQ_updateCpu q (l.data_size - q0.size) heqf
            rw [hqe] at e2
            have e2b : (joinQ (updateCpu m r.cpu q (l.data_size - q0.size)) : Multiset Rec) +
                {q0} = (joinQ m : Multiset Rec) := by
              have hcons : ((q0 :: q : List Rec) : Multiset Rec) =
                  {q0} + (q : Multiset Rec) := by
                simp [Multiset.singleton_add]
              rw [hcons, ← add_assoc] at e2
              exact add_right_cancel e2
            rw [e1, ← e2b]
            simp only [← Multiset.coe_add, Multiset.coe_singleton]
            abel
        · rename_i hds
          have hqnil2 : l.queue = [] := by
            cases hqq : l.queue with
            | nil => rfl
            | cons z zs =>
              rw [hqq, sizeSum_cons] at lds
              have := lpos z (by rw [hqq]; exact List.mem_cons_self _ _)
              omega
          have hinv2 : MergeInv cache2 m := by
            refine ⟨iwf, ind, ?_, ?_⟩
            · intro x hx
              exact icache x (hperm.mem_iff.mpr (List.mem_cons_of_mem _ hx))
            · intro l2 hl2 hne2
              obtain ⟨x, hx, hxc, hxb⟩ := iwit l2 hl2 hne2
              have hl2ne : l2 ≠ l := by
                intro he
                rw [he, hqnil2] at hne2
                exact hne2 rfl
              have hc2 : l2.cpu ≠ r.cpu := by
                intro he
                exact hl2ne (cpu_inj_of_nodup ind hl2 hlm (by rw [he, hlc]))
              have hxr : x ≠ r := by
                intro hxr
                rw [hxr] at hxc
                exact hc2 hxc.symm
              have : x ∈ r :: cache2 := hperm.mem_iff.mp hx
              rcases List.mem_cons.mp this with rfl | hx2
              · exact absurd rfl hxr
              · exact ⟨x, hx2, hxc, hxb⟩
          have hbd2 : ∀ a ∈ out ++ [r], ∀ b ∈ cache2, timeLE a b := by
            intro a ha b hb
            have hbc : b ∈ cache := hperm.mem_iff.mpr (List.mem_cons_of_mem _ hb)
            rcases List.mem_append.mp ha with ha2 | ha2
            · exact hbd a ha2 b hbc
            · simp only [List.mem_singleton] at ha2
              rw [ha2]
              exact hrle b hbc
          have hmeas : cache2.length + queueSizes m < n := by omega
          obtain ⟨c1, c2, c3, c4⟩ := ih _ hmeas cache2 m (out ++ [r]) rfl hinv2 hsort2 hbd2
          refine ⟨c1, c2, c3, ?_⟩
          rw [c4, e1]
          simp only [← Multiset.coe_add, Multiset.coe_singleton]
          abel

/-! Assembly of the sort theorem. -/

theorem partition_wf (rs : List Rec)
    (hpos : ∀ r ∈ rs, 0 < r.size)
    (hlane : ∀ c ∈ rs.map Rec.cpu, (rs.filter (fun x => x.cpu == c)).Sorted timeLE) :
    (∀ l ∈ rs.foldl routeRec [], CpuWF l) ∧
    (∀ l ∈ rs.foldl routeRec [], l.queue ≠ []) ∧
    ((rs.foldl routeRec []).map (fun l => l.cpu)).Nodup := by
  have hnd : ((rs.foldl routeRec []).map (fun l => l.cpu)).Nodup :=
    nodup_cpu_foldl rs [] (by simp)
  have hchar : ∀ l ∈ rs.foldl routeRec [],
      l.queue = rs.filter (fun x => x.cpu == l.cpu) ∧
      l.data_size = sizeSum l.queue ∧ l.queue ≠ [] := by
    intro l hl
    have hfind := findCpu_of_mem_nodup hnd hl
    rw [findCpu_foldl] at hfind
    have h0 : findCpu [] l.cpu = none := rfl
    rw [h0] at hfind
    cases hfil : rs.filter (fun x => x.cpu == l.cpu) with
    | nil =>
      rw [hfil] at hfind
      simp at hfind
    | cons a f =>
      rw [hfil] at hfind
      have := Option.some.inj hfind
      refine ⟨?_, ?_, ?_⟩
      · rw [← this]
      · rw [← this]
      · rw [← this]
        simp
  refine ⟨?_, fun l hl => (hchar l hl).2.2, hnd⟩
  intro l hl
  obtain ⟨hq, hds, hne⟩ := hchar l hl
  have hcpu_mem : l.cpu ∈ rs.map Rec.cpu := by
    obtain ⟨x, hx⟩ := List.exists_mem_of_ne_nil _ hne
    rw [hq] at hx
    have := List.mem_filter.mp hx
    refine List.mem_map.mpr ⟨x, this.1, ?_⟩
    have hb := this.2
    simpa using hb
  refine ⟨?_, ?_, hds, ?_⟩
  · rw [hq]
    exact hlane l.cpu hcpu_mem
  · intro x hx
    rw [hq] at hx
    have := (List.mem_filter.mp hx).2
    simpa using this
  · intro x hx
    rw [hq] at hx
    exact hpos x (List.mem_filter.mp hx).1

/-! Claim C1. -/

/-- C1: sort correctness of SortDataSection.  With both capabilities present,
every record of positive size, the data section's byte count consistent with
its records, and each lane's records already in time order, SortDataSection
succeeds and rewrites the data section to a list of records that is globally
sorted by timestamp, is a permutation of the original records (none lost, none
duplicated), and has the same total byte count. -/
theorem sortDataSection_sorts (w : SortW)
    (hts : IsTimestampSupported w.event_attr_ = true)
    (hcpu : IsCpuSupported w.event_attr_ = true)
    (hpos : ∀ r ∈ w.dataSec, 0 < r.size)
    (hsum : sizeSum w.dataSec = w.data_section_size_)
    (hlane : ∀ c ∈ w.dataSec.map Rec.cpu,
      (w.dataSec.filter (fun x => x.cpu == c)).Sorted timeLE) :
    ∃ out, SortDataSection [] w = (true, { w with dataSec := out }, []) ∧
      out.Sorted timeLE ∧ out.Perm w.dataSec ∧ sizeSum out = sizeSum w.dataSec := by
  obtain ⟨pwf, pne, pnd⟩ := partition_wf w.dataSec hpos hlane
  obtain ⟨cache, m2, hseed, hinv, hms, hlen, hmap⟩ :=
    seed_spec (w.dataSec.foldl routeRec []) pwf pne pnd
  obtain ⟨c1, c2, c3, c4⟩ := mergeLoop_spec (cache.length + queueSizes m2) cache m2 [] rfl
    hinv List.sorted_nil (by simp)
  rcases hm : mergeLoop [] cache m2 [] with ⟨bM, res, oM⟩
  rw [hm] at c1 c2 c3 c4
  simp only at c1 c2 c3 c4
  subst c1
  subst c2
  have hcoe : (res : Multiset Rec) = (w.dataSec : Multiset Rec) := by
    rw [c4]
    have hjf := joinQ_foldl w.dataSec []
    simp only [joinQ] at hjf
    simp only [List.map_nil, List.flatten_nil] at hjf
    have hjf2 : (joinQ (w.dataSec.foldl routeRec []) : Multiset Rec) =
        (w.dataSec : Multiset Rec) := by
      simp only [joinQ]
      rw [hjf]
      simp
    rw [← hjf2, ← hms]
    simp
  have hperm : res.Perm w.dataSec := Multiset.coe_eq_coe.mp hcoe
  refine ⟨res, ?_, c3, hperm, ?_⟩
  · rw [SortDataSection]
    rw [if_neg (by simp [hts, hcpu])]
    simp only [next, Bool.not_true, Bool.false_eq_true, if_false]
    rw [phase1_all w.dataSec [] 0 w.data_section_size_ hpos (by omega)]
    simp only [next, Bool.not_true, Bool.false_eq_true, if_false]
    rw [hseed]
    dsimp only
    rw [hm]
    simp
  · exact ((hperm.map Rec.size).sum_eq)

/-- Instance of sortDataSection_sorts at the three-lane example of the spec:
lane 0 = [1,4,9], lane 1 = [2,3,8], lane 2 = [5,6,7], interleaved in arrival
order; the merged data section is [1,...,9] with the byte count unchanged. -/
theorem sortDataSection_sorts_witness :
    ∃ out, SortDataSection [] sw1 = (true, { sw1 with dataSec := out }, []) ∧
      out.Sorted timeLE ∧ out.Perm sw1.dataSec ∧ sizeSum out = sizeSum sw1.dataSec :=
  sortDataSection_sorts sw1 (by decide) (by decide) (by decide) (by decide) (by decide)

end RecordFileWriter
